import Mathlib

/-!
Verification of the chronix core (task prioritization and deadline-aware
opportunistic scheduling), shallowly embedded from the Python sources
`src/chronix/core/models.py`, `src/chronix/core/aggregation.py` and
`src/chronix/core/scheduler.py`.

Modelling conventions:
* Instants (`datetime`) are integers counting seconds; `DT` pairs the
  instant with its timezone-awareness flag (`tzinfo is None` ↔ `aware = false`).
  All comparisons between aware instants in the source compare absolute
  time, which is the integer comparison here.
* Durations (`timedelta`) are plain integers (seconds); `total_seconds()`
  is the cast to `ℚ` where the source computes float scores.
* Calendar dates (`datetime.date()`) are day numbers: `t.fdiv 86400`.
* Construction-time invariants enforced by the pydantic validators are
  carried as proof fields (`TimeBlock.ok` for `start < end`,
  `Task.dur_pos` for positive duration); timezone-awareness of blocked
  intervals is kept as data because the engine re-checks it at runtime.
* Conflict messages are structured records carrying exactly the data the
  formatted string interpolates (title, completion instant, deadline kind
  and deadline instant); `strftime` rendering is presentation only.
* Errors raised by `schedule_tasks` are modelled with `Except String`.
-/

namespace Chronix

/-- An instant: absolute time in seconds plus timezone-awareness flag. -/
structure DT where
  t : Int
  aware : Bool
deriving DecidableEq, Repr

/-- `models.TimeBlock`: a reserved interval. The pydantic validator
`validate_start_before_end` is carried as the proof field `ok`. -/
structure TimeBlock where
  start : DT
  stop : DT
  kind : String
  label : Option String
  ok : start.t < stop.t

/-- `models.Task`. The `id` is always a string after construction (it is
generated when absent); `validate_duration_positive` is the field `dur_pos`. -/
structure Task where
  id : String
  title : String
  project : Option String
  sectionLabel : Option String
  estimated_duration : Int
  deadline_user : Option DT
  deadline_external : Option DT
  completed : Bool
  source : String
  dur_pos : 0 < estimated_duration

/-- `Task.effective_deadline`: `deadline_external if deadline_external is not None
else deadline_user`. -/
def Task.effective_deadline (t : Task) : Option DT :=
  match t.deadline_external with
  | some d => some d
  | none => t.deadline_user

/-- `models.ScheduledTask`: a placed unit of work. Engine-produced instants
inherit timezone-awareness from the validated inputs, so only the absolute
times are kept here. -/
structure ScheduledTask where
  task : Task
  start : Int
  stop : Int
  violates_deadline_user : Bool
  violates_deadline_external : Bool
  is_segment : Bool
  segment_index : Option Nat
  total_segments : Option Nat

/-- One conflict message, as structured data: the formatted string in
`_build_scheduled_tasks` interpolates exactly the task title, the final end
instant, the deadline kind ("user" or "external") and the deadline instant. -/
structure Conflict where
  title : String
  endsAt : Int
  deadlineKind : String
  deadline : Int
deriving DecidableEq, Repr

/-- `models.DaySchedule`. -/
structure DaySchedule where
  date : Int
  scheduled_tasks : List ScheduledTask
  blocked_time : List TimeBlock
  conflicts : List Conflict

/-! ## Prioritizer (`aggregation.TaskAggregator._sort_tasks_globally`) -/

/-- `datetime.max.replace(tzinfo=timezone.utc)` as seconds (9999-12-31 23:59:59). -/
def maxDTt : Int := 253402300799

/-- Comparison of tasks by a key into a linear order; Python's stable
`sorted(key=...)` is embedded as `List.insertionSort` with this relation
(any two stable sorts over the same total preorder agree extensionally). -/
def keyLE {β : Type} [LinearOrder β] (k : Task → β) (a b : Task) : Prop :=
  k a ≤ k b

instance {β : Type} [LinearOrder β] (k : Task → β) : DecidableRel (keyLE k) :=
  fun a b => inferInstanceAs (Decidable (k a ≤ k b))

instance {β : Type} [LinearOrder β] (k : Task → β) : IsTotal Task (keyLE k) :=
  ⟨fun a b => le_total (k a) (k b)⟩

instance {β : Type} [LinearOrder β] (k : Task → β) : IsTrans Task (keyLE k) :=
  ⟨fun _ _ _ => le_trans⟩

/-- Sort key of the hard-deadline tier: `(deadline_external or max, duration, title)`. -/
def hardKey (t : Task) : Lex (Int × Lex (Int × String)) :=
  toLex ((t.deadline_external.map DT.t).getD maxDTt,
    toLex (t.estimated_duration, t.title))

/-- Sort key of the soft-deadline tier: `(deadline_user or max, duration, title)`. -/
def softKey (t : Task) : Lex (Int × Lex (Int × String)) :=
  toLex ((t.deadline_user.map DT.t).getD maxDTt,
    toLex (t.estimated_duration, t.title))

/-- Sort key of the no-deadline tier: `(duration, title)`. -/
def noneKey (t : Task) : Lex (Int × String) :=
  toLex (t.estimated_duration, t.title)

/-- Sort key of completed tasks with valid metadata:
`(duration, effective_deadline or max, title)`. -/
def cmetaKey (t : Task) : Lex (Int × Lex (Int × String)) :=
  toLex (t.estimated_duration,
    toLex (((t.effective_deadline).map DT.t).getD maxDTt, t.title))

/-- Sort key of completed tasks without valid metadata: title alone. -/
def titleKey (t : Task) : String := t.title

/-- `_has_valid_metadata`: `estimated_duration > timedelta(0)`. -/
def has_valid_metadata (t : Task) : Bool := decide (0 < t.estimated_duration)

/-- `TaskAggregator._sort_tasks_globally`. The source's single pass over
`tasks` appends each task to exactly one of five lists in input order, which
is the same as the five order-preserving filters below; each list is then
sorted with Python's stable `sorted` on the tier's key. -/
def sort_tasks_globally (tasks : List Task) : List Task :=
  let incomplete_hard := tasks.filter fun t => !t.completed && t.deadline_external.isSome
  let incomplete_soft := tasks.filter fun t =>
    !t.completed && !t.deadline_external.isSome && t.deadline_user.isSome
  let incomplete_none := tasks.filter fun t =>
    !t.completed && !t.deadline_external.isSome && !t.deadline_user.isSome
  let completed_meta := tasks.filter fun t => t.completed && has_valid_metadata t
  let completed_no_meta := tasks.filter fun t => t.completed && !has_valid_metadata t
  incomplete_hard.insertionSort (keyLE hardKey) ++
    (incomplete_soft.insertionSort (keyLE softKey) ++
      (incomplete_none.insertionSort (keyLE noneKey) ++
        (completed_meta.insertionSort (keyLE cmetaKey) ++
          completed_no_meta.insertionSort (keyLE titleKey))))

/-! ## Placement engine (`scheduler.SchedulingEngine`) -/

/-- `_find_next_block`: the first block with `start >= from_time or end > from_time`. -/
def find_next_block (from_time : Int) : List TimeBlock → Option TimeBlock
  | [] => none
  | b :: rest =>
    if from_time ≤ b.start.t ∨ from_time < b.stop.t then some b
    else find_next_block from_time rest

theorem find_next_block_mem {ft : Int} {nb : TimeBlock} :
    ∀ {blocks : List TimeBlock}, find_next_block ft blocks = some nb → nb ∈ blocks
  | [], h => by simp [find_next_block] at h
  | b :: rest, h => by
    rw [find_next_block] at h
    by_cases hq : ft ≤ b.start.t ∨ ft < b.stop.t
    · rw [if_pos hq] at h
      injection h with h
      exact h ▸ List.mem_cons_self b rest
    · rw [if_neg hq] at h
      exact List.mem_cons_of_mem _ (find_next_block_mem h)

theorem find_next_block_qual {ft : Int} {nb : TimeBlock} :
    ∀ {blocks : List TimeBlock}, find_next_block ft blocks = some nb →
      ft ≤ nb.start.t ∨ ft < nb.stop.t
  | [], h => by simp [find_next_block] at h
  | b :: rest, h => by
    rw [find_next_block] at h
    by_cases hq : ft ≤ b.start.t ∨ ft < b.stop.t
    · rw [if_pos hq] at h
      injection h with h
      exact h ▸ hq
    · rw [if_neg hq] at h
      exact find_next_block_qual h

/-- Any block returned by `_find_next_block` ends strictly after `from_time`
(using the construction invariant `start < end`). -/
theorem find_next_block_lt_stop {ft : Int} {nb : TimeBlock} {blocks : List TimeBlock}
    (h : find_next_block ft blocks = some nb) : ft < nb.stop.t := by
  rcases find_next_block_qual h with h1 | h1
  · exact lt_of_le_of_lt h1 nb.ok
  · exact h1

/-- The blocks preceding the one returned by `_find_next_block` all lie
strictly before `from_time`. -/
theorem find_next_block_split {ft : Int} {nb : TimeBlock} :
    ∀ {blocks : List TimeBlock}, find_next_block ft blocks = some nb →
      ∃ pre post, blocks = pre ++ nb :: post ∧ ∀ b ∈ pre, b.start.t < ft ∧ b.stop.t ≤ ft
  | [], h => by simp [find_next_block] at h
  | b :: rest, h => by
    rw [find_next_block] at h
    by_cases hq : ft ≤ b.start.t ∨ ft < b.stop.t
    · rw [if_pos hq] at h
      injection h with h
      exact ⟨[], rest, by rw [h]; rfl, by simp⟩
    · rw [if_neg hq] at h
      obtain ⟨pre, post, heq, hpre⟩ := find_next_block_split h
      push_neg at hq
      refine ⟨b :: pre, post, by simp [heq], ?_⟩
      intro x hx
      rcases List.mem_cons.mp hx with hx | hx
      · exact hx ▸ ⟨hq.1, hq.2⟩
      · exact hpre x hx

theorem find_next_block_none {ft : Int} :
    ∀ {blocks : List TimeBlock}, find_next_block ft blocks = none →
      ∀ b ∈ blocks, b.start.t < ft ∧ b.stop.t ≤ ft
  | [], _ => by simp
  | b :: rest, h => by
    rw [find_next_block] at h
    by_cases hq : ft ≤ b.start.t ∨ ft < b.stop.t
    · rw [if_pos hq] at h
      exact absurd h (by simp)
    · rw [if_neg hq] at h
      push_neg at hq
      intro x hx
      rcases List.mem_cons.mp hx with hx | hx
      · exact hx ▸ ⟨hq.1, hq.2⟩
      · exact find_next_block_none h x hx

/-- Monotonicity of filter length under pointwise implication of predicates. -/
theorem length_filter_le_of_imp {α : Type} {p q : α → Bool} {l : List α}
    (h : ∀ a ∈ l, q a = true → p a = true) :
    (l.filter q).length ≤ (l.filter p).length := by
  rw [← List.countP_eq_length_filter, ← List.countP_eq_length_filter]
  exact List.countP_mono_left h

/-- Strict filter-length decrease: used as the termination measure for the
block-walking loops (each step jumps the cursor to the end of a block that
was still ahead, so the set of blocks still ahead strictly shrinks). -/
theorem length_filter_lt_of_imp {α : Type} {p q : α → Bool} {l : List α}
    (h : ∀ a ∈ l, q a = true → p a = true) {x : α}
    (hx : x ∈ l) (hpx : p x = true) (hqx : q x = false) :
    (l.filter q).length < (l.filter p).length := by
  induction l with
  | nil => cases hx
  | cons a l ih =>
    have hrest : ∀ a ∈ l, q a = true → p a = true :=
      fun a ha => h a (List.mem_cons_of_mem _ ha)
    simp only [List.filter_cons]
    rcases List.mem_cons.mp hx with hax | hax
    · subst hax
      rw [if_pos hpx, if_neg (by simp [hqx])]
      exact Nat.lt_succ_of_le (length_filter_le_of_imp hrest)
    · by_cases hqa : q a = true
      · rw [if_pos hqa, if_pos (h a (List.mem_cons_self a l) hqa)]
        exact Nat.succ_lt_succ (ih hrest hax)
      · rw [if_neg hqa]
        have hlt := ih hrest hax
        split
        · exact Nat.lt_succ_of_lt hlt
        · exact hlt

/-- `_estimate_completion_time`'s while-loop: walk forward through blocked
intervals until `remaining` is exhausted. -/
def estimate_go (blocks : List TimeBlock) (current remaining : Int) : Int :=
  if remaining ≤ 0 then current
  else
    match hf : find_next_block current blocks with
    | none => current + remaining
    | some nb =>
      if nb.start.t - current ≤ 0 then
        estimate_go blocks nb.stop.t remaining
      else if remaining ≤ nb.start.t - current then
        current + remaining
      else
        estimate_go blocks nb.stop.t (remaining - (nb.start.t - current))
termination_by (blocks.filter fun b => decide (current < b.stop.t)).length
decreasing_by
  · exact length_filter_lt_of_imp
      (fun b _ hb => by
        have h1 := find_next_block_lt_stop hf
        simp only [decide_eq_true_eq] at hb ⊢
        omega)
      (find_next_block_mem hf)
      (by simp only [decide_eq_true_eq]; exact find_next_block_lt_stop hf)
      (by simp)
  · exact length_filter_lt_of_imp
      (fun b _ hb => by
        have h1 := find_next_block_lt_stop hf
        simp only [decide_eq_true_eq] at hb ⊢
        omega)
      (find_next_block_mem hf)
      (by simp only [decide_eq_true_eq]; exact find_next_block_lt_stop hf)
      (by simp)

/-- `_estimate_completion_time`. -/
def estimate_completion_time (start duration : Int) (blocked_time : List TimeBlock) : Int :=
  estimate_go blocked_time start duration

/-- `_estimate_duration_with_blocks`. -/
def estimate_duration_with_blocks (start duration : Int) (blocked_time : List TimeBlock) : Int :=
  estimate_completion_time start duration blocked_time - start

/-- The skip-past-blocks while-loop at the top of `_schedule_task_segment`. -/
def skip_past_blocks (blocks : List TimeBlock) (current_start : Int) : Int :=
  match hf : find_next_block current_start blocks with
  | none => current_start
  | some nb =>
    if nb.start.t < current_start then skip_past_blocks blocks nb.stop.t
    else current_start
termination_by (blocks.filter fun b => decide (current_start < b.stop.t)).length
decreasing_by
  exact length_filter_lt_of_imp
    (fun b _ hb => by
      have h1 := find_next_block_lt_stop hf
      simp only [decide_eq_true_eq] at hb ⊢
      omega)
    (find_next_block_mem hf)
    (by simp only [decide_eq_true_eq]; exact find_next_block_lt_stop hf)
    (by simp)

theorem estimate_go_nonpos {blocks : List TimeBlock} {current remaining : Int}
    (h : remaining ≤ 0) : estimate_go blocks current remaining = current := by
  rw [estimate_go, if_pos h]

theorem estimate_go_none {blocks : List TimeBlock} {current remaining : Int}
    (h : ¬remaining ≤ 0) (hf : find_next_block current blocks = none) :
    estimate_go blocks current remaining = current + remaining := by
  rw [estimate_go, if_neg h]
  split <;> simp_all

theorem estimate_go_some {blocks : List TimeBlock} {current remaining : Int} {nb : TimeBlock}
    (h : ¬remaining ≤ 0) (hf : find_next_block current blocks = some nb) :
    estimate_go blocks current remaining =
      if nb.start.t - current ≤ 0 then estimate_go blocks nb.stop.t remaining
      else if remaining ≤ nb.start.t - current then current + remaining
      else estimate_go blocks nb.stop.t (remaining - (nb.start.t - current)) := by
  rw [estimate_go, if_neg h]
  split
  · simp_all
  · next nb2 heq =>
    rw [hf] at heq
    injection heq with heq
    subst heq
    rfl

/-- Blocked intervals only delay completion: the estimated completion instant
is at least `start + duration`. -/
theorem estimate_go_ge (blocks : List TimeBlock) :
    ∀ current remaining : Int, 0 ≤ remaining →
      current + remaining ≤ estimate_go blocks current remaining := by
  intro current remaining
  induction current, remaining using estimate_go.induct blocks with
  | case1 current remaining hr =>
    intro h
    rw [estimate_go_nonpos hr]
    omega
  | case2 current remaining hr hf =>
    intro _
    rw [estimate_go_none hr hf]
  | case3 current remaining hr nb hf htub ih =>
    intro h
    rw [estimate_go_some hr hf, if_pos htub]
    have h1 := find_next_block_lt_stop hf
    have h2 := ih h
    omega
  | case4 current remaining hr nb hf htub hfit =>
    intro _
    rw [estimate_go_some hr hf, if_neg htub, if_pos hfit]
  | case5 current remaining hr nb hf htub hfit ih =>
    intro h
    rw [estimate_go_some hr hf, if_neg htub, if_neg hfit]
    have h1 := nb.ok
    have h2 := ih (by omega)
    omega

theorem skip_past_blocks_none {blocks : List TimeBlock} {cs : Int}
    (hf : find_next_block cs blocks = none) : skip_past_blocks blocks cs = cs := by
  rw [skip_past_blocks]
  split <;> simp_all

theorem skip_past_blocks_some {blocks : List TimeBlock} {cs : Int} {nb : TimeBlock}
    (hf : find_next_block cs blocks = some nb) :
    skip_past_blocks blocks cs =
      if nb.start.t < cs then skip_past_blocks blocks nb.stop.t else cs := by
  rw [skip_past_blocks]
  split
  · simp_all
  · next nb2 heq =>
    rw [hf] at heq
    injection heq with heq
    subst heq
    rfl

theorem skip_past_blocks_ge (blocks : List TimeBlock) :
    ∀ cs : Int, cs ≤ skip_past_blocks blocks cs := by
  intro cs
  induction cs using skip_past_blocks.induct blocks with
  | case1 cs hf => rw [skip_past_blocks_none hf]
  | case2 cs nb hf hlt ih =>
    rw [skip_past_blocks_some hf, if_pos hlt]
    have := find_next_block_lt_stop hf
    omega
  | case3 cs nb hf hlt =>
    rw [skip_past_blocks_some hf, if_neg hlt]

/-- `a.start <= b.start`: the key used by `sorted(blocked_time, key=lambda b: b.start)`. -/
def blockLE (a b : TimeBlock) : Prop := a.start.t ≤ b.start.t

instance : DecidableRel blockLE :=
  fun a b => inferInstanceAs (Decidable (a.start.t ≤ b.start.t))

instance : IsTotal TimeBlock blockLE := ⟨fun a b => le_total a.start.t b.start.t⟩

instance : IsTrans TimeBlock blockLE := ⟨fun _ _ _ => le_trans⟩

/-- `_schedule_task_segment`. Always returns a `((start, end), next_available)`
triple (every return path of the source returns a tuple, so the `Optional`
in its signature is never `None`); the source's local `current_start` after
the skip loop is written out as `skip_past_blocks blocks earliest_start`. -/
def schedule_task_segment (blocks : List TimeBlock) (earliest_start remaining_duration : Int) :
    (Int × Int) × Int :=
  match hf : find_next_block (skip_past_blocks blocks earliest_start) blocks with
  | none =>
    ((skip_past_blocks blocks earliest_start,
      skip_past_blocks blocks earliest_start + remaining_duration),
     skip_past_blocks blocks earliest_start + remaining_duration)
  | some nb =>
    if nb.start.t - skip_past_blocks blocks earliest_start ≤ 0 then
      schedule_task_segment blocks nb.stop.t remaining_duration
    else
      ((skip_past_blocks blocks earliest_start,
        skip_past_blocks blocks earliest_start +
          min remaining_duration (nb.start.t - skip_past_blocks blocks earliest_start)),
       skip_past_blocks blocks earliest_start +
         min remaining_duration (nb.start.t - skip_past_blocks blocks earliest_start))
termination_by (blocks.filter fun b => decide (earliest_start < b.stop.t)).length
decreasing_by
  exact length_filter_lt_of_imp
    (fun b _ hb => by
      have h1 := find_next_block_lt_stop hf
      have h2 := skip_past_blocks_ge blocks earliest_start
      simp only [decide_eq_true_eq] at hb ⊢
      omega)
    (find_next_block_mem hf)
    (by
      have h1 := find_next_block_lt_stop hf
      have h2 := skip_past_blocks_ge blocks earliest_start
      simp only [decide_eq_true_eq]
      omega)
    (by simp)

theorem schedule_task_segment_none {blocks : List TimeBlock} {es rd : Int}
    (hf : find_next_block (skip_past_blocks blocks es) blocks = none) :
    schedule_task_segment blocks es rd =
      ((skip_past_blocks blocks es, skip_past_blocks blocks es + rd),
       skip_past_blocks blocks es + rd) := by
  rw [schedule_task_segment]
  split <;> simp_all

theorem schedule_task_segment_some {blocks : List TimeBlock} {es rd : Int} {nb : TimeBlock}
    (hf : find_next_block (skip_past_blocks blocks es) blocks = some nb) :
    schedule_task_segment blocks es rd =
      if nb.start.t - skip_past_blocks blocks es ≤ 0 then
        schedule_task_segment blocks nb.stop.t rd
      else
        ((skip_past_blocks blocks es,
          skip_past_blocks blocks es + min rd (nb.start.t - skip_past_blocks blocks es)),
         skip_past_blocks blocks es + min rd (nb.start.t - skip_past_blocks blocks es)) := by
  rw [schedule_task_segment]
  split
  · simp_all
  · next nb2 heq =>
    rw [hf] at heq
    injection heq with heq
    subst heq
    rfl

/-- Shape of the segment returned by `_schedule_task_segment`: the next
available instant is the segment end, the segment starts no earlier than
requested, consumes at most the remaining duration, and is nonempty whenever
remaining work is positive. -/
theorem schedule_task_segment_spec (blocks : List TimeBlock) :
    ∀ es rd : Int,
      (schedule_task_segment blocks es rd).2 = (schedule_task_segment blocks es rd).1.2 ∧
      es ≤ (schedule_task_segment blocks es rd).1.1 ∧
      (schedule_task_segment blocks es rd).1.2 - (schedule_task_segment blocks es rd).1.1 ≤ rd ∧
      (0 < rd → (schedule_task_segment blocks es rd).1.1 <
        (schedule_task_segment blocks es rd).1.2) := by
  intro es rd
  induction es, rd using schedule_task_segment.induct blocks with
  | case1 es rd hf =>
    rw [schedule_task_segment_none hf]
    dsimp only
    have := skip_past_blocks_ge blocks es
    exact ⟨rfl, this, by omega, fun h => by omega⟩
  | case2 es rd nb hf htub ih =>
    rw [schedule_task_segment_some hf, if_pos htub]
    have h1 := skip_past_blocks_ge blocks es
    have h2 := find_next_block_lt_stop hf
    exact ⟨ih.1, by omega, ih.2.2.1, ih.2.2.2⟩
  | case3 es rd nb hf htub =>
    rw [schedule_task_segment_some hf, if_neg htub]
    dsimp only
    have h1 := skip_past_blocks_ge blocks es
    rcases min_cases rd (nb.start.t - skip_past_blocks blocks es) with ⟨hm, _⟩ | ⟨hm, _⟩ <;>
      rw [hm] <;>
      exact ⟨rfl, h1, by omega, fun h => by omega⟩

/-- The segment returned by `_schedule_task_segment` does not overlap any
blocked interval, provided the blocks are sorted by start (as `schedule_tasks`
arranges). Disjointness of half-open intervals: the segment ends before the
block starts or starts after the block ends. -/
theorem schedule_task_segment_disjoint (blocks : List TimeBlock)
    (hsort : blocks.Pairwise blockLE) :
    ∀ es rd : Int, ∀ b ∈ blocks,
      (schedule_task_segment blocks es rd).1.2 ≤ b.start.t ∨
        b.stop.t ≤ (schedule_task_segment blocks es rd).1.1 := by
  intro es rd
  induction es, rd using schedule_task_segment.induct blocks with
  | case1 es rd hf =>
    intro b hb
    rw [schedule_task_segment_none hf]
    exact Or.inr (find_next_block_none hf b hb).2
  | case2 es rd nb hf htub ih =>
    intro b hb
    rw [schedule_task_segment_some hf, if_pos htub]
    exact ih b hb
  | case3 es rd nb hf htub =>
    intro b hb
    rw [schedule_task_segment_some hf, if_neg htub]
    dsimp only
    obtain ⟨pre, post, heq, hpre⟩ := find_next_block_split hf
    have hmin := min_le_right rd (nb.start.t - skip_past_blocks blocks es)
    rw [heq] at hb hsort
    rcases List.mem_append.mp hb with hb | hb
    · exact Or.inr (hpre b hb).2
    · rcases List.mem_cons.mp hb with hb | hb
      · subst hb
        exact Or.inl (by omega)
      · have hle : blockLE nb b := by
          have h2 := (List.pairwise_append.mp hsort).2.1
          exact (List.pairwise_cons.mp h2).1 b hb
        unfold blockLE at hle
        exact Or.inl (by omega)

/-! ### Dictionaries

`remaining_work` (a Python `dict[str, timedelta]`) and `segments_by_task`
(a `defaultdict(list)`) are embedded as association lists in key-insertion
order, with CPython semantics: assignment overwrites the value of an existing
key in place, a fresh key is appended at the end. -/

/-- Dictionary read. -/
def rlookup : List (String × Int) → String → Option Int
  | [], _ => none
  | (k, v) :: rest, key => if k = key then some v else rlookup rest key

/-- Dictionary write (`remaining_work[id] = v`). -/
def rset : List (String × Int) → String → Int → List (String × Int)
  | [], key, v => [(key, v)]
  | (k, w) :: rest, key, v =>
    if k = key then (k, v) :: rest else (k, w) :: rset rest key v

theorem rlookup_rset_self (m : List (String × Int)) (k : String) (v : Int) :
    rlookup (rset m k v) k = some v := by
  induction m with
  | nil => simp [rset, rlookup]
  | cons p rest ih =>
    obtain ⟨k1, w⟩ := p
    by_cases hk : k1 = k
    · simp [rset, rlookup, hk]
    · simp [rset, rlookup, hk, ih]

theorem rlookup_rset_other (m : List (String × Int)) {k k' : String} (v : Int)
    (h : k' ≠ k) : rlookup (rset m k v) k' = rlookup m k' := by
  induction m with
  | nil =>
    have hkk : ¬k = k' := fun he => h he.symm
    simp [rset, rlookup, hkk]
  | cons p rest ih =>
    obtain ⟨k1, w⟩ := p
    by_cases hk : k1 = k
    · have h1 : ¬k1 = k' := fun he => h (he.symm.trans hk)
      rw [rset, if_pos hk]
      simp only [rlookup]
      rw [if_neg h1, if_neg h1]
    · rw [rset, if_neg hk]
      simp only [rlookup]
      by_cases hk' : k1 = k'
      · rw [if_pos hk', if_pos hk']
      · rw [if_neg hk', if_neg hk', ih]

theorem rset_mem {m : List (String × Int)} {k : String} {v : Int} {p : String × Int}
    (h : p ∈ rset m k v) : p = (k, v) ∨ p ∈ m := by
  induction m with
  | nil => simpa [rset] using h
  | cons q rest ih =>
    obtain ⟨k1, w⟩ := q
    by_cases hk : k1 = k
    · subst hk
      rw [rset, if_pos rfl] at h
      rcases List.mem_cons.mp h with h | h
      · exact Or.inl h
      · exact Or.inr (List.mem_cons_of_mem _ h)
    · rw [rset, if_neg hk] at h
      rcases List.mem_cons.mp h with h | h
      · exact Or.inr (h ▸ List.mem_cons_self _ _)
      · rcases ih h with h | h
        · exact Or.inl h
        · exact Or.inr (List.mem_cons_of_mem _ h)

theorem rset_keys_mem {m : List (String × Int)} {k : String} {v : Int} {k' : String}
    (h : k' ∈ (rset m k v).map Prod.fst) : k' ∈ m.map Prod.fst ∨ k' = k := by
  rcases List.mem_map.mp h with ⟨p, hp, hpk⟩
  rcases rset_mem hp with h1 | h1
  · exact Or.inr (by rw [← hpk, h1])
  · exact Or.inl (hpk ▸ List.mem_map_of_mem Prod.fst h1)

theorem rset_keys_nodup {m : List (String × Int)} {k : String} {v : Int}
    (h : (m.map Prod.fst).Nodup) : ((rset m k v).map Prod.fst).Nodup := by
  induction m with
  | nil => simp [rset]
  | cons q rest ih =>
    obtain ⟨k1, w⟩ := q
    rw [List.map_cons, List.nodup_cons] at h
    by_cases hk : k1 = k
    · rw [rset, if_pos hk]
      simpa using h
    · rw [rset, if_neg hk, List.map_cons, List.nodup_cons]
      refine ⟨fun hc => ?_, ih h.2⟩
      rcases rset_keys_mem hc with h1 | h1
      · exact h.1 h1
      · exact hk h1

theorem rlookup_mem {m : List (String × Int)} {k : String} {r : Int}
    (h : rlookup m k = some r) : (k, r) ∈ m := by
  induction m with
  | nil => simp [rlookup] at h
  | cons q rest ih =>
    obtain ⟨k1, w⟩ := q
    by_cases hk : k1 = k
    · rw [rlookup, if_pos hk] at h
      injection h with h
      exact hk ▸ h ▸ List.mem_cons_self _ _
    · rw [rlookup, if_neg hk] at h
      exact List.mem_cons_of_mem _ (ih h)

theorem mem_rlookup {m : List (String × Int)} {k : String} {r : Int}
    (hn : (m.map Prod.fst).Nodup) (h : (k, r) ∈ m) : rlookup m k = some r := by
  induction m with
  | nil => cases h
  | cons q rest ih =>
    obtain ⟨k1, w⟩ := q
    rw [List.map_cons, List.nodup_cons] at hn
    rcases List.mem_cons.mp h with h | h
    · injection h with h1 h2
      rw [rlookup, if_pos h1.symm, h2]
    · have hk : k1 ≠ k := by
        intro he
        refine hn.1 ?_
        rw [he]
        exact List.mem_map.mpr ⟨(k, r), h, rfl⟩
      rw [rlookup, if_neg hk]
      exact ih hn.2 h

/-- Group read for the `defaultdict(list)` (`segments_by_task[id]`, default `[]`). -/
def sgroup : List (String × List (Task × Int × Int)) → String → List (Task × Int × Int)
  | [], _ => []
  | (k, g) :: rest, key => if k = key then g else sgroup rest key

/-- `segments_by_task[id].append(x)`. -/
def sappend : List (String × List (Task × Int × Int)) → String → Task × Int × Int →
    List (String × List (Task × Int × Int))
  | [], key, x => [(key, [x])]
  | (k, g) :: rest, key, x =>
    if k = key then (k, g ++ [x]) :: rest else (k, g) :: sappend rest key x

theorem sgroup_sappend_self (m : List (String × List (Task × Int × Int)))
    (k : String) (x : Task × Int × Int) :
    sgroup (sappend m k x) k = sgroup m k ++ [x] := by
  induction m with
  | nil => simp [sappend, sgroup]
  | cons q rest ih =>
    obtain ⟨k1, g⟩ := q
    by_cases hk : k1 = k
    · simp [sappend, sgroup, hk]
    · simp [sappend, sgroup, hk, ih]

theorem sgroup_sappend_other (m : List (String × List (Task × Int × Int)))
    {k k' : String} (x : Task × Int × Int) (h : k' ≠ k) :
    sgroup (sappend m k x) k' = sgroup m k' := by
  induction m with
  | nil =>
    have hkk : ¬k = k' := fun he => h he.symm
    simp [sappend, sgroup, hkk]
  | cons q rest ih =>
    obtain ⟨k1, g⟩ := q
    by_cases hk : k1 = k
    · have h1 : ¬k1 = k' := fun he => h (he.symm.trans hk)
      rw [sappend, if_pos hk]
      simp only [sgroup]
      rw [if_neg h1, if_neg h1]
    · rw [sappend, if_neg hk]
      simp only [sgroup]
      by_cases hk' : k1 = k'
      · rw [if_pos hk', if_pos hk']
      · rw [if_neg hk', if_neg hk', ih]

theorem sappend_mem {m : List (String × List (Task × Int × Int))} {k : String}
    {x : Task × Int × Int} {p : String × List (Task × Int × Int)}
    (h : p ∈ sappend m k x) : p ∈ m ∨ (p.1 = k ∧ p.2 = sgroup m k ++ [x]) := by
  induction m with
  | nil =>
    rw [sappend] at h
    rcases List.mem_cons.mp h with h | h
    · exact Or.inr (by rw [h]; exact ⟨rfl, by simp [sgroup]⟩)
    · cases h
  | cons q rest ih =>
    obtain ⟨k1, g⟩ := q
    by_cases hk : k1 = k
    · subst hk
      rw [sappend, if_pos rfl] at h
      rcases List.mem_cons.mp h with h | h
      · exact Or.inr (by rw [h]; exact ⟨rfl, by simp [sgroup]⟩)
      · exact Or.inl (List.mem_cons_of_mem _ h)
    · rw [sappend, if_neg hk] at h
      rcases List.mem_cons.mp h with h | h
      · exact Or.inl (h ▸ List.mem_cons_self _ _)
      · rcases ih h with h1 | h1
        · exact Or.inl (List.mem_cons_of_mem _ h1)
        · refine Or.inr ⟨h1.1, ?_⟩
          have hs : sgroup ((k1, g) :: rest) k = sgroup rest k := by
            rw [sgroup, if_neg hk]
          rw [hs, h1.2]

theorem sappend_keys_mem {m : List (String × List (Task × Int × Int))} {k : String}
    {x : Task × Int × Int} {k' : String}
    (h : k' ∈ (sappend m k x).map Prod.fst) : k' ∈ m.map Prod.fst ∨ k' = k := by
  rcases List.mem_map.mp h with ⟨p, hp, hpk⟩
  rcases sappend_mem hp with h1 | h1
  · exact Or.inl (hpk ▸ List.mem_map_of_mem Prod.fst h1)
  · exact Or.inr (by rw [← hpk, h1.1])

theorem sappend_keys_nodup {m : List (String × List (Task × Int × Int))} {k : String}
    {x : Task × Int × Int} (h : (m.map Prod.fst).Nodup) :
    ((sappend m k x).map Prod.fst).Nodup := by
  induction m with
  | nil => simp [sappend]
  | cons q rest ih =>
    obtain ⟨k1, g⟩ := q
    rw [List.map_cons, List.nodup_cons] at h
    by_cases hk : k1 = k
    · rw [sappend, if_pos hk]
      simpa using h
    · rw [sappend, if_neg hk, List.map_cons, List.nodup_cons]
      refine ⟨fun hc => ?_, ih h.2⟩
      rcases sappend_keys_mem hc with h1 | h1
      · exact h.1 h1
      · exact hk h1

theorem sgroup_mem {m : List (String × List (Task × Int × Int))} {k : String}
    (h : sgroup m k ≠ []) : (k, sgroup m k) ∈ m := by
  induction m with
  | nil => simp [sgroup] at h
  | cons q rest ih =>
    obtain ⟨k1, g⟩ := q
    by_cases hk : k1 = k
    · subst hk
      rw [sgroup, if_pos rfl] at h ⊢
      exact List.mem_cons_self _ _
    · rw [sgroup, if_neg hk] at h ⊢
      exact List.mem_cons_of_mem _ (ih h)

/-! ### Selection (`_calculate_urgency`, `_is_safe_to_schedule`, `_select_next_task`) -/

/-- `_calculate_urgency`. The source computes float scores from
`timedelta.total_seconds()`; scores are represented exactly in `ℚ`. -/
def calculate_urgency (task : Task) (current_time remaining_duration : Int)
    (blocked_time : List TimeBlock) : ℚ :=
  match task.effective_deadline with
  | none => 1e10 + (remaining_duration : ℚ)
  | some ddl =>
    if ddl.t - current_time ≤ 0 then
      -1e9 + ((ddl.t - current_time : Int) : ℚ)
    else
      if task.deadline_external.isSome then
        (((ddl.t - current_time : Int) : ℚ) -
          ((estimate_completion_time current_time remaining_duration blocked_time
              - current_time : Int) : ℚ)) * 0.5
      else
        ((ddl.t - current_time : Int) : ℚ) -
          ((estimate_completion_time current_time remaining_duration blocked_time
              - current_time : Int) : ℚ)

/-- `_is_safe_to_schedule`: scheduling `task` now must not make any other
candidate's critical deadline infeasible. -/
def is_safe_to_schedule (task : Task) (current_time : Int)
    (remaining_work : List (String × Int)) (all_tasks : List Task)
    (blocked_time : List TimeBlock) : Bool :=
  all_tasks.all fun other =>
    if other.id = task.id then true
    else
      match other.effective_deadline with
      | none => true
      | some oddl =>
        if (rlookup remaining_work other.id).getD 0 ≤ 0 then true
        else
          let estimated_end := estimate_completion_time current_time
            ((rlookup remaining_work task.id).getD 0) blocked_time
          let time_until_other_deadline := oddl.t - estimated_end
          let time_needed_for_other := estimate_duration_with_blocks estimated_end
            ((rlookup remaining_work other.id).getD 0) blocked_time
          let is_critical : Bool :=
            if other.deadline_external.isSome then true
            else if other.deadline_user.isSome then
              decide (time_until_other_deadline - time_needed_for_other <
                time_needed_for_other)
            else false
          !(is_critical && decide (time_until_other_deadline < time_needed_for_other))

/-- Score comparison used by `urgency_scores.sort(key=lambda x: x[0])`. -/
def scoreLE (a b : ℚ × Task) : Prop := a.1 ≤ b.1

instance : DecidableRel scoreLE := fun a b => inferInstanceAs (Decidable (a.1 ≤ b.1))

instance : IsTotal (ℚ × Task) scoreLE := ⟨fun a b => le_total a.1 b.1⟩

instance : IsTrans (ℚ × Task) scoreLE := ⟨fun _ _ _ => le_trans⟩

/-- `_select_next_task`. -/
def select_next_task (tasks : List Task) (remaining_work : List (String × Int))
    (current_time : Int) (blocked_time : List TimeBlock) : Option Task :=
  let candidates := tasks.filter fun t => decide (0 < (rlookup remaining_work t.id).getD 0)
  if candidates.isEmpty then none
  else
    let urgency_scores := candidates.map fun t =>
      (calculate_urgency t current_time ((rlookup remaining_work t.id).getD 0) blocked_time, t)
    let sorted_scores := urgency_scores.insertionSort scoreLE
    match sorted_scores.find? fun p =>
        is_safe_to_schedule p.2 current_time remaining_work candidates blocked_time with
    | some p => some p.2
    | none => sorted_scores.head?.map Prod.snd

/-- Whatever `_select_next_task` returns is a candidate: a member of `tasks`
with strictly positive remaining work. -/
theorem select_next_task_mem {tasks : List Task} {remaining_work : List (String × Int)}
    {current_time : Int} {blocked_time : List TimeBlock} {t : Task}
    (h : select_next_task tasks remaining_work current_time blocked_time = some t) :
    t ∈ tasks ∧ 0 < (rlookup remaining_work t.id).getD 0 := by
  simp only [select_next_task] at h
  set candidates := tasks.filter fun t => decide (0 < (rlookup remaining_work t.id).getD 0)
    with hc
  by_cases he : candidates.isEmpty = true
  · rw [if_pos he] at h
    cases h
  · rw [if_neg he] at h
    set urgency_scores := candidates.map fun t =>
      (calculate_urgency t current_time ((rlookup remaining_work t.id).getD 0)
        blocked_time, t) with hu
    set sorted_scores := urgency_scores.insertionSort scoreLE with hs
    have hmem : t ∈ candidates := by
      have hsub : ∀ p : ℚ × Task, p ∈ sorted_scores → p.2 ∈ candidates := by
        intro p hp
        rw [hs] at hp
        have hp2 := (List.perm_insertionSort scoreLE urgency_scores).mem_iff.mp hp
        rw [hu] at hp2
        rcases List.mem_map.mp hp2 with ⟨c, hcm, hceq⟩
        rw [← hceq]
        exact hcm
      rcases hfind : sorted_scores.find? fun p =>
          is_safe_to_schedule p.2 current_time remaining_work candidates blocked_time with
        _ | p
      · rw [hfind] at h
        rcases ho : sorted_scores.head? with _ | p
        · rw [ho] at h
          cases h
        · rw [ho] at h
          injection h with h
          rw [← h]
          exact hsub p (List.mem_of_mem_head? ho)
      · rw [hfind] at h
        injection h with h
        rw [← h]
        exact hsub p (List.mem_of_find?_eq_some hfind)
    rw [hc] at hmem
    have := List.mem_filter.mp hmem
    exact ⟨this.1, by simpa using this.2⟩

/-! ### The opportunistic loop (`_schedule_opportunistically`) -/

/-- The `remaining_work` initialization loop: for every incomplete task,
`remaining_work[task.id] = task.estimated_duration` (in input order). -/
def initRemaining (tasks : List Task) : List (String × Int) :=
  tasks.foldl (fun m t => if t.completed then m else rset m t.id t.estimated_duration) []

/-- Total outstanding work, used as the termination measure of the loop. -/
def remMeasure (rem : List (String × Int)) : Nat :=
  (rem.map fun p => p.2.toNat).sum

theorem remMeasure_rset_lt {rem : List (String × Int)} {key : String} {r v : Int}
    (hl : rlookup rem key = some r) (hr : 0 < r) (hv : v < r) :
    remMeasure (rset rem key v) < remMeasure rem := by
  induction rem with
  | nil => simp [rlookup] at hl
  | cons q rest ih =>
    obtain ⟨k1, w⟩ := q
    by_cases hk : k1 = key
    · rw [rlookup, if_pos hk] at hl
      injection hl with hl
      rw [rset, if_pos hk]
      have : v.toNat < w.toNat := by omega
      simp only [remMeasure, List.map_cons, List.sum_cons]
      omega
    · rw [rlookup, if_neg hk] at hl
      rw [rset, if_neg hk]
      have := ih hl
      simp only [remMeasure, List.map_cons, List.sum_cons] at this ⊢
      omega

/-- The `while any(duration > 0 ...)` loop of `_schedule_opportunistically`,
as a function of its mutable state `(remaining_work, current_time,
segments_by_task)`; returns the final segments and remaining-work map.
The source's `if segment: ... else: break` guard is omitted because
`_schedule_task_segment` returns a segment on every path. -/
def sched_loop (tasks : List Task) (blocked_time : List TimeBlock)
    (remaining_work : List (String × Int)) (current_time : Int)
    (segs : List (String × List (Task × Int × Int))) :
    List (String × List (Task × Int × Int)) × List (String × Int) :=
  if remaining_work.any fun p => decide (0 < p.2) then
    match hs : select_next_task tasks remaining_work current_time blocked_time with
    | none => (segs, remaining_work)
    | some task =>
      sched_loop tasks blocked_time
        (rset remaining_work task.id
          ((rlookup remaining_work task.id).getD 0 -
            ((schedule_task_segment blocked_time current_time
                ((rlookup remaining_work task.id).getD 0)).1.2 -
              (schedule_task_segment blocked_time current_time
                ((rlookup remaining_work task.id).getD 0)).1.1)))
        (schedule_task_segment blocked_time current_time
          ((rlookup remaining_work task.id).getD 0)).2
        (sappend segs task.id
          (task,
            (schedule_task_segment blocked_time current_time
              ((rlookup remaining_work task.id).getD 0)).1.1,
            (schedule_task_segment blocked_time current_time
              ((rlookup remaining_work task.id).getD 0)).1.2))
  else (segs, remaining_work)
termination_by remMeasure remaining_work
decreasing_by
  have hsel := select_next_task_mem hs
  rcases hlook : rlookup remaining_work task.id with _ | r
  · rw [hlook] at hsel
    simp at hsel
  · rw [hlook] at hsel
    have hr : 0 < r := by simpa using hsel.2
    have hseg := schedule_task_segment_spec blocked_time current_time ((some r).getD 0)
    simp only [Option.getD_some] at hseg ⊢
    exact remMeasure_rset_lt hlook hr (by omega)

/-- As long as some known task has positive remaining work, `_select_next_task`
cannot return `None`: the candidate filter is nonempty, and both the safe
branch and the best-effort fallback return an element. -/
theorem select_next_task_ne_none {tasks : List Task} {remaining_work : List (String × Int)}
    {current_time : Int} {blocked_time : List TimeBlock} {t' : Task}
    (ht : t' ∈ tasks) (hr : 0 < (rlookup remaining_work t'.id).getD 0) :
    select_next_task tasks remaining_work current_time blocked_time ≠ none := by
  simp only [select_next_task]
  set candidates := tasks.filter fun t => decide (0 < (rlookup remaining_work t.id).getD 0)
    with hc
  have hmem : t' ∈ candidates := by
    rw [hc]
    exact List.mem_filter.mpr ⟨ht, by simpa using hr⟩
  have hne : candidates ≠ [] := fun he => by
    rw [he] at hmem
    cases hmem
  rw [if_neg (by simpa using hne)]
  set urgency_scores := candidates.map fun t =>
    (calculate_urgency t current_time ((rlookup remaining_work t.id).getD 0)
      blocked_time, t) with hu
  set sorted_scores := urgency_scores.insertionSort scoreLE with hs
  have hsne : sorted_scores ≠ [] := by
    rw [hs]
    intro he
    have := (List.perm_insertionSort scoreLE urgency_scores).length_eq
    rw [he] at this
    rw [hu] at this
    simp at this
    exact hne (List.length_eq_zero.mp this.symm)
  split
  · simp
  · rcases ho : sorted_scores.head? with _ | p
    · exact absurd (List.head?_eq_none_iff.mp ho) hsne
    · simp [ho]

theorem sched_loop_done {tasks : List Task} {blocked_time : List TimeBlock}
    {remaining_work : List (String × Int)} {current_time : Int}
    {segs : List (String × List (Task × Int × Int))}
    (h : (remaining_work.any fun p => decide (0 < p.2)) = false) :
    sched_loop tasks blocked_time remaining_work current_time segs =
      (segs, remaining_work) := by
  rw [sched_loop, if_neg (by simp [h])]

theorem sched_loop_stuck {tasks : List Task} {blocked_time : List TimeBlock}
    {remaining_work : List (String × Int)} {current_time : Int}
    {segs : List (String × List (Task × Int × Int))}
    (h : (remaining_work.any fun p => decide (0 < p.2)) = true)
    (hs : select_next_task tasks remaining_work current_time blocked_time = none) :
    sched_loop tasks blocked_time remaining_work current_time segs =
      (segs, remaining_work) := by
  rw [sched_loop, if_pos h]
  split <;> simp_all

theorem sched_loop_step {tasks : List Task} {blocked_time : List TimeBlock}
    {remaining_work : List (String × Int)} {current_time : Int}
    {segs : List (String × List (Task × Int × Int))} {task : Task}
    (h : (remaining_work.any fun p => decide (0 < p.2)) = true)
    (hs : select_next_task tasks remaining_work current_time blocked_time = some task) :
    sched_loop tasks blocked_time remaining_work current_time segs =
      sched_loop tasks blocked_time
        (rset remaining_work task.id
          ((rlookup remaining_work task.id).getD 0 -
            ((schedule_task_segment blocked_time current_time
                ((rlookup remaining_work task.id).getD 0)).1.2 -
              (schedule_task_segment blocked_time current_time
                ((rlookup remaining_work task.id).getD 0)).1.1)))
        (schedule_task_segment blocked_time current_time
          ((rlookup remaining_work task.id).getD 0)).2
        (sappend segs task.id
          (task,
            (schedule_task_segment blocked_time current_time
              ((rlookup remaining_work task.id).getD 0)).1.1,
            (schedule_task_segment blocked_time current_time
              ((rlookup remaining_work task.id).getD 0)).1.2)) := by
  rw [sched_loop, if_pos h]
  split
  · simp_all
  · next task2 heq =>
    rw [hs] at heq
    injection heq with heq
    subst heq
    rfl

/-- Total length of a list of raw segments. -/
def segLen (g : List (Task × Int × Int)) : Int :=
  (g.map fun sg => sg.2.2 - sg.2.1).sum

/-- Well-formedness of the `segments_by_task` accumulator: every group is
nonempty; each raw segment belongs to its key's task, is a nonempty interval
disjoint from every blocked interval; and each group is chronologically
chained (every segment ends no later than the next one starts). -/
def GroupsWF (tasks : List Task) (blocks : List TimeBlock)
    (segs : List (String × List (Task × Int × Int))) : Prop :=
  ∀ q ∈ segs, q.2 ≠ [] ∧
    (∀ sg ∈ q.2, sg.1.id = q.1 ∧ sg.1 ∈ tasks ∧ sg.2.1 < sg.2.2 ∧
      (∀ b ∈ blocks, sg.2.2 ≤ b.start.t ∨ b.stop.t ≤ sg.2.1)) ∧
    q.2.Pairwise fun x y => x.2.2 ≤ y.2.1

theorem segLen_append (g1 g2 : List (Task × Int × Int)) :
    segLen (g1 ++ g2) = segLen g1 + segLen g2 := by
  simp [segLen]

/-- Master invariant of the `_schedule_opportunistically` loop. Starting from
a state whose remaining-work keys are all known task ids with nonnegative
work, and a well-formed accumulator bounded by the cursor, the loop ends with
every counter equal to zero, conserves `remaining + scheduled length` per
key, and returns a well-formed accumulator with distinct keys. -/
theorem sched_loop_spec (tasks : List Task) (blocks : List TimeBlock)
    (hsort : blocks.Pairwise blockLE) :
    ∀ rem : List (String × Int), ∀ ct : Int,
      ∀ segs : List (String × List (Task × Int × Int)),
      (∀ p ∈ rem, 0 < p.2 → ∃ t ∈ tasks, t.id = p.1) →
      (∀ p ∈ rem, 0 ≤ p.2) →
      (rem.map Prod.fst).Nodup →
      (segs.map Prod.fst).Nodup →
      GroupsWF tasks blocks segs →
      (∀ q ∈ segs, ∀ sg ∈ q.2, sg.2.2 ≤ ct) →
      (∀ p ∈ (sched_loop tasks blocks rem ct segs).2, p.2 = 0) ∧
      (∀ k, (rlookup (sched_loop tasks blocks rem ct segs).2 k).getD 0 +
          segLen (sgroup (sched_loop tasks blocks rem ct segs).1 k) =
        (rlookup rem k).getD 0 + segLen (sgroup segs k)) ∧
      ((sched_loop tasks blocks rem ct segs).1.map Prod.fst).Nodup ∧
      GroupsWF tasks blocks (sched_loop tasks blocks rem ct segs).1 := by
  intro rem ct segs
  induction rem, ct, segs using sched_loop.induct tasks blocks with
  | case1 rem ct segs hany hsel =>
    intro Hsel Hnn Hrk _ _ _
    exfalso
    rcases List.any_eq_true.mp hany with ⟨p, hp, hpos⟩
    rcases Hsel p hp (by simpa using hpos) with ⟨t', ht', hid⟩
    have hpm : (t'.id, p.2) ∈ rem := by
      have : p = (t'.id, p.2) := by
        rw [hid]
      rw [← this]
      exact hp
    have hlk := mem_rlookup Hrk hpm
    refine select_next_task_ne_none ht' ?_ hsel
    rw [hlk]
    simpa using hpos
  | case2 rem ct segs hany task hsel ih =>
    intro Hsel Hnn Hrk Hsk Hwf Hbd
    have hmem := select_next_task_mem hsel
    rcases hlk : rlookup rem task.id with _ | r
    · rw [hlk] at hmem
      simp at hmem
    · rw [hlk] at hmem ih
      rw [sched_loop_step hany hsel, hlk]
      simp only [Option.getD_some] at hmem ih ⊢
      have hr : 0 < r := hmem.2
      have hseg := schedule_task_segment_spec blocks ct r
      have hdisj := schedule_task_segment_disjoint blocks hsort ct r
      set S := schedule_task_segment blocks ct r with hS
      obtain ⟨hnext, hsge, hlen, hpos⟩ := hseg
      have hslt := hpos hr
      -- the freshly placed segment
      set x : Task × Int × Int := (task, S.1.1, S.1.2) with hx
      have hmain := ih
        (by
          intro p hp hppos
          rcases rset_mem hp with he | hin
          · rw [he]
            exact ⟨task, hmem.1, rfl⟩
          · exact Hsel p hin hppos)
        (by
          intro p hp
          rcases rset_mem hp with he | hin
          · rw [he]
            simp only
            omega
          · exact Hnn p hin)
        (rset_keys_nodup Hrk)
        (sappend_keys_nodup Hsk)
        (by
          intro q hq
          rcases sappend_mem hq with hin | ⟨hk, hg⟩
          · exact Hwf q hin
          · refine ⟨by rw [hg]; simp, ?_, ?_⟩
            · intro sg hsg
              rw [hg] at hsg
              rcases List.mem_append.mp hsg with hsg | hsg
              · have hold := Hwf (task.id, sgroup segs task.id)
                  (sgroup_mem (List.ne_nil_of_mem hsg))
                have := hold.2.1 sg hsg
                exact ⟨this.1.trans hk.symm, this.2.1, this.2.2.1, this.2.2.2⟩
              · rcases List.mem_singleton.mp hsg with rfl
                refine ⟨hk.symm, hmem.1, hslt, ?_⟩
                intro b hb
                exact hdisj b hb
            · rw [hg]
              rcases he : sgroup segs task.id with _ | ⟨y, ys⟩
              · simp
              · rw [← he]
                refine List.pairwise_append.mpr ⟨?_, by simp, ?_⟩
                · exact (Hwf (task.id, sgroup segs task.id)
                    (sgroup_mem (by rw [he]; simp))).2.2
                · intro a ha b' hb'
                  rcases List.mem_singleton.mp hb' with rfl
                  have hbound := Hbd (task.id, sgroup segs task.id)
                    (sgroup_mem (by rw [he]; simp)) a ha
                  simp only [hx]
                  omega)
        (by
          intro q hq sg hsg
          rw [hnext]
          rcases sappend_mem hq with hin | ⟨hk, hg⟩
          · have := Hbd q hin sg hsg
            omega
          · rw [hg] at hsg
            rcases List.mem_append.mp hsg with hsg | hsg
            · have := Hbd (task.id, sgroup segs task.id)
                (sgroup_mem (List.ne_nil_of_mem hsg)) sg hsg
              omega
            · rcases List.mem_singleton.mp hsg with rfl
              simp only [hx]
              omega)
      refine ⟨hmain.1, ?_, hmain.2.2.1, hmain.2.2.2⟩
      intro k
      rw [hmain.2.1 k]
      by_cases hk : k = task.id
      · subst hk
        rw [rlookup_rset_self, sgroup_sappend_self, hlk, segLen_append]
        simp only [Option.getD_some, segLen, List.map_cons, List.map_nil, List.sum_cons,
          List.sum_nil]
        omega
      · rw [rlookup_rset_other _ _ hk, sgroup_sappend_other _ _ hk]
  | case3 rem ct segs hany =>
    intro Hsel Hnn Hrk Hsk Hwf Hbd
    have hfalse : (rem.any fun p => decide (0 < p.2)) = false := by
      simpa using hany
    rw [sched_loop_done hfalse]
    refine ⟨?_, fun k => rfl, Hsk, Hwf⟩
    intro p hp
    have := List.any_eq_false.mp hfalse p hp
    have h2 := Hnn p hp
    simp at this
    omega

/-! ### Finalization (`_build_scheduled_tasks`) and entry points -/

/-- `_violates_deadline`: `task_end > deadline`, `False` when no deadline. -/
def violates_deadline (task_end : Int) (deadline : Option DT) : Bool :=
  match deadline with
  | none => false
  | some d => decide (d.t < task_end)

/-- `segments.sort(key=lambda s: s[1])`: compare raw segments by start. -/
def segLE (a b : Task × Int × Int) : Prop := a.2.1 ≤ b.2.1

instance : DecidableRel segLE := fun a b => inferInstanceAs (Decidable (a.2.1 ≤ b.2.1))

instance : IsTotal (Task × Int × Int) segLE := ⟨fun a b => le_total a.2.1 b.2.1⟩

instance : IsTrans (Task × Int × Int) segLE := ⟨fun _ _ _ => le_trans⟩

/-- `scheduled.sort(key=lambda s: s.start)`. -/
def stLE (a b : ScheduledTask) : Prop := a.start ≤ b.start

instance : DecidableRel stLE := fun a b => inferInstanceAs (Decidable (a.start ≤ b.start))

instance : IsTotal ScheduledTask stLE := ⟨fun a b => le_total a.start b.start⟩

instance : IsTrans ScheduledTask stLE := ⟨fun _ _ _ => le_trans⟩

/-- The per-task body of `_build_scheduled_tasks`: sort the task's raw
segments by start, compute the violation flags from the final segment's end,
emit one conflict per violated deadline, and one `ScheduledTask` per segment
(1-based indices, multi-segment metadata only when more than one segment). -/
def build_group (segments : List (Task × Int × Int)) : List ScheduledTask × List Conflict :=
  match segments.insertionSort segLE with
  | [] => ([], [])
  | first :: rest =>
    let task := first.1
    let final_end := (rest.getLastD first).2.2
    let is_multi := !rest.isEmpty
    let violates_user := violates_deadline final_end task.deadline_user
    let violates_external := violates_deadline final_end task.deadline_external
    let conflicts :=
      (if violates_user && task.deadline_user.isSome then
        [{ title := task.title, endsAt := final_end, deadlineKind := "user",
           deadline := (task.deadline_user.map DT.t).getD 0 }]
      else []) ++
      (if violates_external && task.deadline_external.isSome then
        [{ title := task.title, endsAt := final_end, deadlineKind := "external",
           deadline := (task.deadline_external.map DT.t).getD 0 }]
      else [])
    let scheduled := (first :: rest).enum.map fun p =>
      { task := task
        start := p.2.2.1
        stop := p.2.2.2
        violates_deadline_user := violates_user
        violates_deadline_external := violates_external
        is_segment := is_multi
        segment_index := if is_multi then some (p.1 + 1) else none
        total_segments := if is_multi then some (first :: rest).length else none }
    (scheduled, conflicts)

/-- `_build_scheduled_tasks`: one group per `segments_by_task` key in
insertion order, conflicts concatenated in that order, scheduled segments
finally sorted chronologically. -/
def build_scheduled_tasks (segments_by_task : List (String × List (Task × Int × Int))) :
    List ScheduledTask × List Conflict :=
  (((segments_by_task.map fun p => build_group p.2).map Prod.fst).flatten.insertionSort stLE,
   ((segments_by_task.map fun p => build_group p.2).map Prod.snd).flatten)

/-- Computation rule for `build_group` on an already chronologically sorted
nonempty group (as produced by the loop, where each task's segments are
recorded in increasing order, so the final `segments.sort` is the identity). -/
theorem build_group_eq {first : Task × Int × Int} {rest : List (Task × Int × Int)}
    (hsorted : (first :: rest).Pairwise segLE) :
    build_group (first :: rest) =
      ((first :: rest).enum.map fun p =>
        { task := first.1
          start := p.2.2.1
          stop := p.2.2.2
          violates_deadline_user :=
            violates_deadline ((rest.getLastD first).2.2) first.1.deadline_user
          violates_deadline_external :=
            violates_deadline ((rest.getLastD first).2.2) first.1.deadline_external
          is_segment := !rest.isEmpty
          segment_index := if !rest.isEmpty then some (p.1 + 1) else none
          total_segments := if !rest.isEmpty then some (first :: rest).length else none },
       (if violates_deadline ((rest.getLastD first).2.2) first.1.deadline_user &&
            first.1.deadline_user.isSome then
          [{ title := first.1.title, endsAt := (rest.getLastD first).2.2,
             deadlineKind := "user",
             deadline := (first.1.deadline_user.map DT.t).getD 0 }]
        else []) ++
       (if violates_deadline ((rest.getLastD first).2.2) first.1.deadline_external &&
            first.1.deadline_external.isSome then
          [{ title := first.1.title, endsAt := (rest.getLastD first).2.2,
             deadlineKind := "external",
             deadline := (first.1.deadline_external.map DT.t).getD 0 }]
        else [])) := by
  have hins : (first :: rest).insertionSort segLE = first :: rest :=
    List.Sorted.insertionSort_eq hsorted
  rw [build_group, hins]

/-- The interval endpoints of the built `ScheduledTask`s are exactly the raw
segment endpoints, in order. -/
theorem build_group_map_startStop {first : Task × Int × Int}
    {rest : List (Task × Int × Int)} (hsorted : (first :: rest).Pairwise segLE) :
    ((build_group (first :: rest)).1.map fun st => (st.start, st.stop)) =
      (first :: rest).map fun sg => (sg.2.1, sg.2.2) := by
  rw [build_group_eq hsorted]
  rw [List.map_map]
  have : ((fun st : ScheduledTask => (st.start, st.stop)) ∘ fun p : Nat × (Task × Int × Int) =>
      ({ task := first.1
         start := p.2.2.1
         stop := p.2.2.2
         violates_deadline_user :=
           violates_deadline ((rest.getLastD first).2.2) first.1.deadline_user
         violates_deadline_external :=
           violates_deadline ((rest.getLastD first).2.2) first.1.deadline_external
         is_segment := !rest.isEmpty
         segment_index := if !rest.isEmpty then some (p.1 + 1) else none
         total_segments := if !rest.isEmpty then some (first :: rest).length else none } :
        ScheduledTask)) =
      (fun sg : Task × Int × Int => (sg.2.1, sg.2.2)) ∘ Prod.snd := rfl
  rw [this, ← List.map_map, List.enum_map_snd]

/-- Every built `ScheduledTask` carries the task of some raw segment of the
group. -/
theorem build_group_task_mem {g : List (Task × Int × Int)} :
    ∀ st ∈ (build_group g).1, ∃ sg ∈ g, st.task = sg.1 := by
  intro st hst
  rcases hins : g.insertionSort segLE with _ | ⟨first, rest⟩
  · rw [build_group, hins] at hst
    cases hst
  · rw [build_group, hins] at hst
    rcases List.mem_map.mp hst with ⟨p, _, hpe⟩
    refine ⟨first, ?_, by rw [← hpe]⟩
    have : first ∈ g.insertionSort segLE := by
      rw [hins]
      exact List.mem_cons_self _ _
    exact (List.perm_insertionSort segLE g).mem_iff.mp this

/-- All fields shared across one group's `ScheduledTask`s, and the origin of
each segment's endpoints. -/
theorem build_group_mem {first : Task × Int × Int} {rest : List (Task × Int × Int)}
    (hsorted : (first :: rest).Pairwise segLE) :
    ∀ st ∈ (build_group (first :: rest)).1,
      st.task = first.1 ∧
      st.violates_deadline_user =
        violates_deadline ((rest.getLastD first).2.2) first.1.deadline_user ∧
      st.violates_deadline_external =
        violates_deadline ((rest.getLastD first).2.2) first.1.deadline_external ∧
      st.is_segment = !rest.isEmpty ∧
      ∃ sg ∈ first :: rest, st.start = sg.2.1 ∧ st.stop = sg.2.2 := by
  intro st hst
  rw [build_group_eq hsorted] at hst
  rcases List.mem_map.mp hst with ⟨p, hp, hpe⟩
  have hsnd : p.2 ∈ first :: rest := by
    have : p.2 ∈ (first :: rest).enum.map Prod.snd := List.mem_map_of_mem Prod.snd hp
    rwa [List.enum_map_snd] at this
  exact ⟨by rw [← hpe], by rw [← hpe], by rw [← hpe], by rw [← hpe],
    ⟨p.2, hsnd, by rw [← hpe], by rw [← hpe]⟩⟩

theorem build_group_length {first : Task × Int × Int} {rest : List (Task × Int × Int)}
    (hsorted : (first :: rest).Pairwise segLE) :
    (build_group (first :: rest)).1.length = rest.length + 1 := by
  rw [build_group_eq hsorted]
  simp

/-- The chronological chaining of a group transfers to its built
`ScheduledTask`s. -/
theorem build_group_chain {first : Task × Int × Int} {rest : List (Task × Int × Int)}
    (hsorted : (first :: rest).Pairwise segLE)
    (hchain : (first :: rest).Pairwise fun x y => x.2.2 ≤ y.2.1) :
    (build_group (first :: rest)).1.Pairwise fun a b => a.stop ≤ b.start := by
  have h1 : ((first :: rest).map fun sg => (sg.2.1, sg.2.2)).Pairwise
      (fun u v : Int × Int => u.2 ≤ v.1) :=
    List.pairwise_map.mpr (hchain.imp fun h => h)
  rw [← build_group_map_startStop hsorted] at h1
  exact (List.pairwise_map.mp h1).imp fun h => h

theorem sgroup_not_key {m : List (String × List (Task × Int × Int))} {k : String}
    (h : k ∉ m.map Prod.fst) : sgroup m k = [] := by
  induction m with
  | nil => rfl
  | cons q rest ih =>
    obtain ⟨k1, g⟩ := q
    rw [List.map_cons] at h
    have h1 : ¬k1 = k := fun he => h (by simp [he])
    rw [sgroup, if_neg h1]
    exact ih fun hm => h (List.mem_cons_of_mem _ hm)

/-- Filtering the concatenated built segments of a key-distinct segment map by
one task id yields exactly the build of that id's group. -/
theorem flat_filter (P : List (String × List (Task × Int × Int)))
    (hk : (P.map Prod.fst).Nodup)
    (hid : ∀ q ∈ P, ∀ st ∈ (build_group q.2).1, st.task.id = q.1) (k : String) :
    ((P.map fun p => (build_group p.2).1).flatten).filter (fun st => st.task.id = k) =
      (build_group (sgroup P k)).1 := by
  induction P with
  | nil =>
    simp [sgroup, build_group]
  | cons q rest ih =>
    obtain ⟨k1, g⟩ := q
    rw [List.map_cons, List.nodup_cons] at hk
    have hid1 := hid (k1, g) (List.mem_cons_self _ _)
    have hidr : ∀ q ∈ rest, ∀ st ∈ (build_group q.2).1, st.task.id = q.1 :=
      fun q hq => hid q (List.mem_cons_of_mem _ hq)
    rw [List.map_cons, List.flatten_cons, List.filter_append]
    by_cases hk1 : k1 = k
    · subst hk1
      have h1 : ((build_group g).1.filter fun st => st.task.id = k1) = (build_group g).1 :=
        List.filter_eq_self.mpr fun st hst => by
          simpa using hid1 st hst
      have h2 : ((rest.map fun p => (build_group p.2).1).flatten.filter
          fun st => st.task.id = k1) = (build_group (sgroup rest k1)).1 := ih hk.2 hidr
      rw [h1, h2, sgroup_not_key hk.1, sgroup, if_pos rfl]
      simp [build_group]
    · have h1 : ((build_group g).1.filter fun st => st.task.id = k) = [] :=
        List.filter_eq_nil.mpr fun st hst => by
          have := hid1 st hst
          simp only [this]
          simpa using hk1
      rw [h1, ih hk.2 hidr, sgroup, if_neg hk1]
      rfl

theorem initRemaining_aux_keys (tasks : List Task) :
    ∀ acc : List (String × Int),
      ∀ k ∈ ((tasks.foldl (fun m t =>
          if t.completed then m else rset m t.id t.estimated_duration) acc).map Prod.fst),
        k ∈ acc.map Prod.fst ∨ ∃ t ∈ tasks, t.completed = false ∧ t.id = k := by
  induction tasks with
  | nil =>
    intro acc k hk
    exact Or.inl hk
  | cons t ts ih =>
    intro acc k hk
    rw [List.foldl_cons] at hk
    rcases ih _ k hk with hin | ⟨t', ht', hc', hid'⟩
    · by_cases hc : t.completed
      · rw [if_pos hc] at hin
        exact Or.inl hin
      · rw [if_neg hc] at hin
        rcases rset_keys_mem hin with h1 | h1
        · exact Or.inl h1
        · exact Or.inr ⟨t, List.mem_cons_self _ _, by simpa using hc, h1.symm⟩
    · exact Or.inr ⟨t', List.mem_cons_of_mem _ ht', hc', hid'⟩

theorem initRemaining_keys (tasks : List Task) :
    ∀ k ∈ (initRemaining tasks).map Prod.fst,
      ∃ t ∈ tasks, t.completed = false ∧ t.id = k := by
  intro k hk
  rcases initRemaining_aux_keys tasks [] k hk with h | h
  · cases h
  · exact h

theorem initRemaining_aux_nodup (tasks : List Task) :
    ∀ acc : List (String × Int), (acc.map Prod.fst).Nodup →
      (((tasks.foldl (fun m t =>
          if t.completed then m else rset m t.id t.estimated_duration) acc).map
        Prod.fst)).Nodup := by
  induction tasks with
  | nil => exact fun acc h => h
  | cons t ts ih =>
    intro acc h
    rw [List.foldl_cons]
    by_cases hc : t.completed
    · rw [if_pos hc]
      exact ih _ h
    · rw [if_neg hc]
      exact ih _ (rset_keys_nodup h)

theorem initRemaining_keys_nodup (tasks : List Task) :
    ((initRemaining tasks).map Prod.fst).Nodup :=
  initRemaining_aux_nodup tasks [] (by simp)

theorem initRemaining_aux_nonneg (tasks : List Task) :
    ∀ acc : List (String × Int), (∀ p ∈ acc, 0 ≤ p.2) →
      ∀ p ∈ tasks.foldl (fun m t =>
          if t.completed then m else rset m t.id t.estimated_duration) acc,
        0 ≤ p.2 := by
  induction tasks with
  | nil => exact fun acc h => h
  | cons t ts ih =>
    intro acc h
    rw [List.foldl_cons]
    by_cases hc : t.completed
    · rw [if_pos hc]
      exact ih _ h
    · rw [if_neg hc]
      refine ih _ ?_
      intro p hp
      rcases rset_mem hp with he | hin
      · rw [he]
        exact le_of_lt t.dur_pos
      · exact h p hin

theorem initRemaining_nonneg (tasks : List Task) :
    ∀ p ∈ initRemaining tasks, 0 ≤ p.2 :=
  initRemaining_aux_nonneg tasks [] (by simp)

theorem foldl_rset_frozen (tasks : List Task) {k : String} :
    ∀ acc : List (String × Int), (∀ t ∈ tasks, t.id ≠ k) →
      rlookup (tasks.foldl (fun m t =>
        if t.completed then m else rset m t.id t.estimated_duration) acc) k =
      rlookup acc k := by
  induction tasks with
  | nil => exact fun acc _ => rfl
  | cons t ts ih =>
    intro acc h
    rw [List.foldl_cons]
    have hr := ih (if t.completed then acc else rset acc t.id t.estimated_duration)
      fun t' ht' => h t' (List.mem_cons_of_mem _ ht')
    rw [hr]
    by_cases hc : t.completed
    · rw [if_pos hc]
    · rw [if_neg hc]
      exact rlookup_rset_other _ _ fun he => h t (List.mem_cons_self _ _) he.symm

/-- Under distinct task ids, the initial remaining-work of an incomplete task
is its estimated duration. -/
theorem initRemaining_lookup {tasks : List Task} (hids : (tasks.map Task.id).Nodup) :
    ∀ t ∈ tasks, t.completed = false →
      rlookup (initRemaining tasks) t.id = some t.estimated_duration := by
  rw [initRemaining]
  generalize ([] : List (String × Int)) = acc
  induction tasks generalizing acc with
  | nil =>
    intro t ht
    cases ht
  | cons t1 ts ih =>
    intro t ht hc
    rw [List.map_cons, List.nodup_cons] at hids
    rw [List.foldl_cons]
    rcases List.mem_cons.mp ht with he | hin
    · subst he
      rw [if_neg (by simp [hc])]
      rw [foldl_rset_frozen ts _ fun t' ht' hid =>
        hids.1 (by rw [← hid]; exact List.mem_map_of_mem Task.id ht')]
      exact rlookup_rset_self _ _ _
    · exact ih hids.2 _ t hin hc

/-- `_schedule_opportunistically`. -/
def schedule_opportunistically (tasks : List Task) (start_time : Int)
    (blocked_time : List TimeBlock) : List ScheduledTask × List Conflict :=
  build_scheduled_tasks
    (sched_loop (tasks.filter fun t => !t.completed) blocked_time (initRemaining tasks)
      start_time []).1

/-- The initial state of the loop satisfies the master invariant's
hypotheses, so the loop's conclusions hold for every run of
`_schedule_opportunistically`. -/
theorem schedule_opportunistically_loop_spec (tasks : List Task) (start_time : Int)
    (blocks : List TimeBlock) (hsort : blocks.Pairwise blockLE) :
    (∀ p ∈ (sched_loop (tasks.filter fun t => !t.completed) blocks
        (initRemaining tasks) start_time []).2, p.2 = 0) ∧
    (∀ k, (rlookup (sched_loop (tasks.filter fun t => !t.completed) blocks
          (initRemaining tasks) start_time []).2 k).getD 0 +
        segLen (sgroup (sched_loop (tasks.filter fun t => !t.completed) blocks
          (initRemaining tasks) start_time []).1 k) =
      (rlookup (initRemaining tasks) k).getD 0) ∧
    (((sched_loop (tasks.filter fun t => !t.completed) blocks
        (initRemaining tasks) start_time []).1.map Prod.fst).Nodup) ∧
    GroupsWF (tasks.filter fun t => !t.completed) blocks
      (sched_loop (tasks.filter fun t => !t.completed) blocks
        (initRemaining tasks) start_time []).1 := by
  have h := sched_loop_spec (tasks.filter fun t => !t.completed) blocks hsort
    (initRemaining tasks) start_time []
    (by
      intro p hp _
      rcases initRemaining_keys tasks p.1 (List.mem_map_of_mem Prod.fst hp) with
        ⟨t', ht', hc', hid'⟩
      exact ⟨t', List.mem_filter.mpr ⟨ht', by simp [hc']⟩, hid'⟩)
    (initRemaining_nonneg tasks)
    (initRemaining_keys_nodup tasks)
    (by simp)
    (by intro q hq; cases hq)
    (by intro q hq; cases hq)
  refine ⟨h.1, ?_, h.2.2.1, h.2.2.2⟩
  intro k
  have := h.2.1 k
  simpa [sgroup, segLen] using this

/-- Looking up a key in the final remaining-work map always yields zero. -/
theorem final_rem_zero {rem : List (String × Int)} (hz : ∀ p ∈ rem, p.2 = 0)
    (k : String) : (rlookup rem k).getD 0 = 0 := by
  rcases hl : rlookup rem k with _ | v
  · rfl
  · simpa using hz (k, v) (rlookup_mem hl)

/-- Every conflict emitted for a group names the title of one of the group's
tasks. -/
theorem build_group_conflict_mem {g : List (Task × Int × Int)} :
    ∀ c ∈ (build_group g).2, ∃ sg ∈ g, c.title = sg.1.title := by
  intro c hc
  rcases hins : g.insertionSort segLE with _ | ⟨first, rest⟩
  · rw [build_group, hins] at hc
    cases hc
  · rw [build_group, hins] at hc
    have hfirst : first ∈ g := by
      have : first ∈ g.insertionSort segLE := by
        rw [hins]
        exact List.mem_cons_self _ _
      exact (List.perm_insertionSort segLE g).mem_iff.mp this
    refine ⟨first, hfirst, ?_⟩
    rcases List.mem_append.mp hc with h | h <;>
      [skip; skip] <;>
      · split at h
        · rcases List.mem_singleton.mp h with rfl
          rfl
        · cases h

/-- Counting one conflict record in the whole run reduces to counting it in
the group of one key, provided no other group can emit that record. -/
theorem flat_conflict_count (P : List (String × List (Task × Int × Int)))
    (r : Conflict) (k : String)
    (hother : ∀ q ∈ P, q.1 ≠ k → r ∉ (build_group q.2).2)
    (hk : (P.map Prod.fst).Nodup) :
    (((P.map fun p => build_group p.2).map Prod.snd).flatten).count r =
      ((build_group (sgroup P k)).2).count r := by
  induction P with
  | nil => rfl
  | cons q rest ih =>
    obtain ⟨k1, g⟩ := q
    rw [List.map_cons, List.nodup_cons] at hk
    have hotherr : ∀ q ∈ rest, q.1 ≠ k → r ∉ (build_group q.2).2 :=
      fun q hq => hother q (List.mem_cons_of_mem _ hq)
    rw [List.map_cons, List.map_cons, List.flatten_cons, List.count_append]
    dsimp only
    by_cases hk1 : k1 = k
    · subst hk1
      rw [sgroup, if_pos rfl]
      have hz : (((rest.map fun p => build_group p.2).map Prod.snd).flatten).count r = 0 := by
        rw [List.count_eq_zero]
        intro hmem
        rcases List.mem_flatten.mp hmem with ⟨l, hl, hrl⟩
        rw [List.map_map] at hl
        rcases List.mem_map.mp hl with ⟨q, hq, hql⟩
        have hq1 : q.1 ≠ k1 := by
          intro he
          refine hk.1 ?_
          rw [← he]
          exact List.mem_map.mpr ⟨q, hq, rfl⟩
        refine hotherr q hq hq1 ?_
        rw [← hql] at hrl
        exact hrl
      rw [hz]
      omega
    · have hz : ((build_group g).2).count r = 0 := by
        rw [List.count_eq_zero]
        exact hother (k1, g) (List.mem_cons_self _ _) hk1
      rw [hz, sgroup, if_neg hk1, ih hotherr hk.2]
      omega

/-- Per-task content of a `_schedule_opportunistically` run under distinct
task ids: the output segments carrying an incomplete task `t` (in output
order) are exactly the build of `t`'s group `g`, whose raw segments are
nonempty intervals of `t`, chronologically chained, disjoint from every
blocked interval, and of total length `t.estimated_duration`; moreover,
under distinct titles, conflicts naming `t`'s title are counted entirely by
`t`'s group. -/
theorem schedule_opportunistically_per_task (tasks : List Task) (start_time : Int)
    (blocks : List TimeBlock) (hsort : blocks.Pairwise blockLE)
    (hids : (tasks.map Task.id).Nodup)
    {t : Task} (ht : t ∈ tasks) (hc : t.completed = false) :
    ∃ g : List (Task × Int × Int),
      ((schedule_opportunistically tasks start_time blocks).1.filter
        fun st => st.task.id = t.id) = (build_group g).1 ∧
      segLen g = t.estimated_duration ∧
      g ≠ [] ∧
      (g.Pairwise fun x y => x.2.2 ≤ y.2.1) ∧
      g.Pairwise segLE ∧
      (∀ sg ∈ g, sg.1 = t ∧ sg.2.1 < sg.2.2 ∧
        (∀ b ∈ blocks, sg.2.2 ≤ b.start.t ∨ b.stop.t ≤ sg.2.1)) ∧
      ((tasks.map Task.title).Nodup → ∀ r : Conflict, r.title = t.title →
        (schedule_opportunistically tasks start_time blocks).2.count r =
          ((build_group g).2).count r) := by
  obtain ⟨hzero, hcons, hknodup, hwf⟩ :=
    schedule_opportunistically_loop_spec tasks start_time blocks hsort
  set L := sched_loop (tasks.filter fun t => !t.completed) blocks
    (initRemaining tasks) start_time [] with hL
  set g := sgroup L.1 t.id with hg
  -- total length of the group
  have hlen : segLen g = t.estimated_duration := by
    have := hcons t.id
    rw [final_rem_zero hzero t.id, initRemaining_lookup hids t ht hc] at this
    simpa using this
  have hne : g ≠ [] := by
    intro he
    have := t.dur_pos
    rw [he] at hlen
    simp [segLen] at hlen
    omega
  -- properties of the group from the loop invariant
  have hgmem : (t.id, g) ∈ L.1 := sgroup_mem hne
  obtain ⟨-, hsegs, hchain⟩ := hwf (t.id, g) hgmem
  have hsegs' : ∀ sg ∈ g, sg.1 = t ∧ sg.2.1 < sg.2.2 ∧
      (∀ b ∈ blocks, sg.2.2 ≤ b.start.t ∨ b.stop.t ≤ sg.2.1) := by
    intro sg hsg
    obtain ⟨hid1, hmem1, hlt1, hdis1⟩ := hsegs sg hsg
    have hsg_tasks : sg.1 ∈ tasks := (List.mem_filter.mp hmem1).1
    exact ⟨List.inj_on_of_nodup_map hids hsg_tasks ht hid1, hlt1, hdis1⟩
  have hsorted : g.Pairwise segLE :=
    hchain.imp_of_mem fun {a b} ha _ hab =>
      le_of_lt (lt_of_lt_of_le (hsegs' a ha).2.1 hab)
  refine ⟨g, ?hfil, hlen, hne, hchain, hsorted, hsegs', ?hcnt⟩
  case hcnt =>
    intro htitles r hrt
    simp only [schedule_opportunistically, build_scheduled_tasks, ← hL]
    have hother : ∀ q ∈ L.1, q.1 ≠ t.id → r ∉ (build_group q.2).2 := by
      intro q hq hqne hmem
      rcases build_group_conflict_mem r hmem with ⟨sg, hsg, htl⟩
      obtain ⟨hid1, hmem1, -, -⟩ := (hwf q hq).2.1 sg hsg
      have hsg_tasks : sg.1 ∈ tasks := (List.mem_filter.mp hmem1).1
      have hsg_ne : sg.1 ≠ t := by
        intro he
        rw [he] at hid1
        exact hqne hid1.symm
      exact hsg_ne (List.inj_on_of_nodup_map htitles hsg_tasks ht
        (by rw [← htl, hrt]))
    have hcount := flat_conflict_count L.1 r t.id hother hknodup
    rw [← hg] at hcount
    exact hcount
  -- the filtered output equals the build of the group
  have hid_all : ∀ q ∈ L.1, ∀ st ∈ (build_group q.2).1, st.task.id = q.1 := by
    intro q hq st hst
    rcases build_group_task_mem st hst with ⟨sg, hsg, hte⟩
    rw [hte]
    exact ((hwf q hq).2.1 sg hsg).1
  have hflat := flat_filter L.1 hknodup hid_all t.id
  simp only [schedule_opportunistically, build_scheduled_tasks, ← hL]
  have hfuse : List.map Prod.fst (List.map (fun p => build_group p.2) L.1) =
      L.1.map fun p => (build_group p.2).1 := by
    rw [List.map_map]
    rfl
  rw [hfuse]
  set flat := ((L.1.map fun p => (build_group p.2).1)).flatten with hflat_def
  have hperm : ((flat.insertionSort stLE).filter fun st => st.task.id = t.id).Perm
      ((build_group g).1) := by
    rw [← hflat]
    exact (List.perm_insertionSort stLE flat).filter _
  -- both sides are sorted by strictly increasing start
  rcases hgc : g with _ | ⟨first, rest⟩
  · have hb : (build_group ([] : List (Task × Int × Int))).1 = [] := rfl
    rw [hgc] at hperm
    rw [hb] at hperm
    rw [hb]
    exact hperm.eq_nil
  · rw [← hgc]
    have hgsorted : g.Pairwise segLE := hsorted
    have hbuild_chain : (build_group g).1.Pairwise fun a b => a.stop ≤ b.start := by
      rw [hgc] at hgsorted hchain ⊢
      exact build_group_chain hgsorted hchain
    have hbuild_pos : ∀ st ∈ (build_group g).1, st.start < st.stop := by
      rw [hgc]
      intro st hst
      rcases (build_group_mem (by rw [hgc] at hgsorted; exact hgsorted) st hst).2.2.2.2 with
        ⟨sg, hsg, hs1, hs2⟩
      have := (hsegs' sg (by rw [hgc]; exact hsg)).2.1
      omega
    have hbuild_strict : (build_group g).1.Pairwise fun a b => a.start < b.start :=
      hbuild_chain.imp_of_mem fun {a b} ha _ hab =>
        lt_of_lt_of_le (hbuild_pos a ha) hab
    have hfilter_le : ((flat.insertionSort stLE).filter
        fun st => st.task.id = t.id).Pairwise stLE :=
      List.Pairwise.sublist (List.filter_sublist _) (List.sorted_insertionSort stLE flat)
    have hRsym : ∀ {x y : ScheduledTask},
        (x.stop ≤ y.start ∨ y.stop ≤ x.start) → (y.stop ≤ x.start ∨ x.stop ≤ y.start) :=
      fun h => h.symm
    have hfilter_R : ((flat.insertionSort stLE).filter
        fun st => st.task.id = t.id).Pairwise
          fun x y => x.stop ≤ y.start ∨ y.stop ≤ x.start :=
      (hperm.pairwise_iff hRsym).mpr (hbuild_chain.imp fun h => Or.inl h)
    have hfilter_pos : ∀ st ∈ (flat.insertionSort stLE).filter
        (fun st => st.task.id = t.id), st.start < st.stop :=
      fun st hst => hbuild_pos st (hperm.mem_iff.mp hst)
    have hfilter_strict : ((flat.insertionSort stLE).filter
        fun st => st.task.id = t.id).Pairwise fun a b => a.start < b.start := by
      have hand := hfilter_le.and hfilter_R
      exact hand.imp_of_mem fun {a b} ha hb hab => by
        rcases hab.2 with h1 | h1
        · exact lt_of_lt_of_le (hfilter_pos a ha) h1
        · exact absurd (lt_of_lt_of_le (hfilter_pos b hb) (h1.trans hab.1))
            (lt_irrefl _)
    haveI : IsAntisymm ScheduledTask fun a b => a.start < b.start :=
      ⟨fun a b h1 h2 => (lt_asymm h1 h2).elim⟩
    exact List.eq_of_perm_of_sorted hperm hfilter_strict hbuild_strict

/-- `datetime.date()` of an instant: its day number. -/
def dateOf (t : Int) : Int := t.fdiv 86400

/-- `SchedulingEngine.schedule_tasks`: validate timezone-awareness, sort the
blocked intervals by start, run the opportunistic scheduler, and package the
result as a `DaySchedule` dated at the start instant's calendar day. -/
def schedule_tasks (tasks : List Task) (start_time : DT) (blocked_time : List TimeBlock) :
    Except String DaySchedule :=
  if start_time.aware = false then Except.error "start_time must be timezone-aware"
  else if blocked_time.any fun b => !b.start.aware || !b.stop.aware then
    Except.error "All blocked time must be timezone-aware"
  else
    let sorted_blocks := blocked_time.insertionSort blockLE
    let res := schedule_opportunistically tasks start_time.t sorted_blocks
    Except.ok
      { date := dateOf start_time.t
        scheduled_tasks := res.1
        blocked_time := sorted_blocks
        conflicts := res.2 }

/-- `SchedulingEngine.schedule_continuous`: collect blocked intervals for the
requested days plus one overflow day, run one continuous placement, then
partition by calendar day (the source's unused `day_start`/`day_end` locals
are omitted); the result dictionary is the association list in day order. -/
def schedule_continuous (tasks : List Task) (start_time : DT) (num_days : Nat)
    (daily_blocked_time_fn : Int → List TimeBlock) :
    Except String (List (Int × DaySchedule)) :=
  if start_time.aware = false then Except.error "start_time must be timezone-aware"
  else
    let all_blocked_time := (List.range (num_days + 1)).flatMap fun day_offset : Nat =>
      daily_blocked_time_fn (dateOf start_time.t + (day_offset : Int))
    let sorted_blocks := all_blocked_time.insertionSort blockLE
    let res := schedule_opportunistically tasks start_time.t sorted_blocks
    Except.ok ((List.range num_days).map fun day_offset : Nat =>
      (dateOf start_time.t + (day_offset : Int),
        { date := dateOf start_time.t + (day_offset : Int)
          scheduled_tasks := res.1.filter fun st =>
            decide (dateOf st.start ≤ dateOf start_time.t + (day_offset : Int)) &&
              decide (dateOf start_time.t + (day_offset : Int) ≤ dateOf st.stop)
          blocked_time := sorted_blocks.filter fun b =>
            decide (dateOf b.start.t ≤ dateOf start_time.t + (day_offset : Int)) &&
              decide (dateOf start_time.t + (day_offset : Int) ≤ dateOf b.stop.t)
          conflicts := if day_offset = 0 then res.2 else [] }))

/-- Destructuring a successful `schedule_tasks` run: the awareness checks
passed, and the fields of the returned `DaySchedule` are the outputs of one
opportunistic run over the start-sorted blocked intervals. -/
theorem schedule_tasks_ok {tasks : List Task} {start_time : DT}
    {blocked_time : List TimeBlock} {sched : DaySchedule}
    (h : schedule_tasks tasks start_time blocked_time = Except.ok sched) :
    start_time.aware = true ∧
    sched.scheduled_tasks = (schedule_opportunistically tasks start_time.t
      (blocked_time.insertionSort blockLE)).1 ∧
    sched.blocked_time = blocked_time.insertionSort blockLE ∧
    sched.conflicts = (schedule_opportunistically tasks start_time.t
      (blocked_time.insertionSort blockLE)).2 ∧
    sched.date = dateOf start_time.t := by
  simp only [schedule_tasks] at h
  by_cases h1 : start_time.aware = false
  · rw [if_pos h1] at h
    cases h
  · rw [if_neg h1] at h
    by_cases h2 : (blocked_time.any fun b => !b.start.aware || !b.stop.aware) = true
    · rw [if_pos h2] at h
      cases h
    · rw [if_neg h2] at h
      injection h with h
      rw [← h]
      exact ⟨by simpa using h1, rfl, rfl, rfl, rfl⟩

/-- Endpoints of every built `ScheduledTask` come from a raw segment of the
group. -/
theorem build_group_startStop_mem {g : List (Task × Int × Int)} :
    ∀ st ∈ (build_group g).1, ∃ sg ∈ g, st.start = sg.2.1 ∧ st.stop = sg.2.2 := by
  intro st hst
  rcases hins : g.insertionSort segLE with _ | ⟨first, rest⟩
  · rw [build_group, hins] at hst
    cases hst
  · rw [build_group, hins] at hst
    rcases List.mem_map.mp hst with ⟨p, hp, hpe⟩
    have hsnd : p.2 ∈ first :: rest := by
      have : p.2 ∈ (first :: rest).enum.map Prod.snd := List.mem_map_of_mem Prod.snd hp
      rwa [List.enum_map_snd] at this
    refine ⟨p.2, ?_, by rw [← hpe], by rw [← hpe]⟩
    rw [← hins] at hsnd
    exact (List.perm_insertionSort segLE g).mem_iff.mp hsnd

/-- C1: in every successful `schedule_tasks` run on tasks with distinct ids,
the segments of each incomplete task (in output order, which is sorted by
start) are pairwise non-overlapping, their lengths sum exactly to the task's
`estimated_duration`, and a task scheduled in exactly one segment has
`is_segment = false` and length equal to `estimated_duration`. -/
theorem claim_C1_segment_cover (tasks : List Task) (start_time : DT)
    (blocked_time : List TimeBlock) (sched : DaySchedule)
    (hok : schedule_tasks tasks start_time blocked_time = Except.ok sched)
    (hids : (tasks.map Task.id).Nodup)
    (t : Task) (ht : t ∈ tasks) (hc : t.completed = false) :
    (((sched.scheduled_tasks.filter fun st => st.task.id = t.id).map
        fun st => st.stop - st.start).sum = t.estimated_duration) ∧
    ((sched.scheduled_tasks.filter fun st => st.task.id = t.id).Pairwise
      fun a b => a.stop ≤ b.start) ∧
    (∀ st, (sched.scheduled_tasks.filter fun st => st.task.id = t.id) = [st] →
      st.is_segment = false ∧ st.stop - st.start = t.estimated_duration) := by
  obtain ⟨-, hsched, -, -, -⟩ := schedule_tasks_ok hok
  have hsort : (blocked_time.insertionSort blockLE).Pairwise blockLE :=
    List.sorted_insertionSort blockLE blocked_time
  obtain ⟨g, hfilter, hlen, hne, hchain, hsorted, hsegs⟩ :=
    schedule_opportunistically_per_task tasks start_time.t
      (blocked_time.insertionSort blockLE) hsort hids ht hc
  rw [hsched]
  rcases hgc : g with _ | ⟨first, rest⟩
  · rw [hgc] at hne
    exact absurd rfl hne
  · rw [hgc] at hfilter hlen hchain hsorted hsegs
    rw [hfilter]
    have hmap : ((build_group (first :: rest)).1.map fun st => st.stop - st.start) =
        (first :: rest).map fun sg => sg.2.2 - sg.2.1 := by
      have h1 := congrArg (List.map fun pr : Int × Int => pr.2 - pr.1)
        (build_group_map_startStop hsorted)
      rw [List.map_map, List.map_map] at h1
      exact h1
    refine ⟨?_, build_group_chain hsorted hchain, ?_⟩
    · rw [hmap]
      exact hlen
    · intro st hst
      have hlen1 : (build_group (first :: rest)).1.length = 1 := by
        rw [hst]
        rfl
      rw [build_group_length hsorted] at hlen1
      have hrest : rest = [] := List.length_eq_zero.mp (by omega)
      subst hrest
      have hstm : st ∈ (build_group [first]).1 := by
        rw [hst]
        exact List.mem_cons_self _ _
      obtain ⟨-, -, -, hseg1, sg, hsg, hs1, hs2⟩ := build_group_mem hsorted st hstm
      rcases List.mem_singleton.mp hsg with rfl
      refine ⟨by simpa using hseg1, ?_⟩
      rw [hs1, hs2]
      simpa [segLen] using hlen

/-- C2: in every successful `schedule_tasks` run (including runs whose
blocked intervals overlap each other), no produced segment's half-open
interval overlaps any blocked interval of that run. -/
theorem claim_C2_no_block_overlap (tasks : List Task) (start_time : DT)
    (blocked_time : List TimeBlock) (sched : DaySchedule)
    (hok : schedule_tasks tasks start_time blocked_time = Except.ok sched) :
    ∀ st ∈ sched.scheduled_tasks, ∀ b ∈ blocked_time,
      ¬(st.start < b.stop.t ∧ b.start.t < st.stop) := by
  obtain ⟨-, hsched, -, -, -⟩ := schedule_tasks_ok hok
  have hsort : (blocked_time.insertionSort blockLE).Pairwise blockLE :=
    List.sorted_insertionSort blockLE blocked_time
  obtain ⟨-, -, -, hwf⟩ := schedule_opportunistically_loop_spec tasks start_time.t
    (blocked_time.insertionSort blockLE) hsort
  intro st hst b hb
  rw [hsched] at hst
  simp only [schedule_opportunistically, build_scheduled_tasks] at hst
  have hst2 := (List.perm_insertionSort stLE _).mem_iff.mp hst
  rcases List.mem_flatten.mp hst2 with ⟨l, hl, hstl⟩
  rw [List.map_map] at hl
  rcases List.mem_map.mp hl with ⟨q, hq, hql⟩
  have hstq : st ∈ (build_group q.2).1 := by
    rw [← hql] at hstl
    exact hstl
  rcases build_group_startStop_mem st hstq with ⟨sg, hsg, hs1, hs2⟩
  have hdis := ((hwf q hq).2.1 sg hsg).2.2.2 b
    ((List.perm_insertionSort blockLE blocked_time).mem_iff.mpr hb)
  rw [hs1, hs2]
  rintro ⟨hov1, hov2⟩
  rcases hdis with h1 | h1 <;> omega

/-- C10: `effective_deadline` equals `deadline_external` when present,
otherwise `deadline_user` (external overrides user), and it is `none` exactly
when both deadlines are absent. -/
theorem claim_C10_effective_deadline (t : Task) :
    t.effective_deadline = (if t.deadline_external.isSome then t.deadline_external
      else t.deadline_user) ∧
    (t.effective_deadline = none ↔ t.deadline_external = none ∧ t.deadline_user = none) := by
  rcases he : t.deadline_external with _ | d <;>
    simp [Task.effective_deadline, he]

/-- Every task list is a permutation of its five tier filters: the single
pass of `_sort_tasks_globally` appends each task to exactly one tier. -/
theorem tasks_perm_parts (tasks : List Task) :
    tasks.Perm
      ((tasks.filter (fun t => !t.completed && t.deadline_external.isSome)) ++
       ((tasks.filter (fun t => !t.completed && !t.deadline_external.isSome && t.deadline_user.isSome)) ++
        ((tasks.filter (fun t => !t.completed && !t.deadline_external.isSome && !t.deadline_user.isSome)) ++
         ((tasks.filter (fun t => t.completed && has_valid_metadata t)) ++
          (tasks.filter (fun t => t.completed && !has_valid_metadata t)))))) := by
  induction tasks with
  | nil => simp
  | cons t ts ih =>
    by_cases hc : t.completed = true
    · by_cases hm : has_valid_metadata t = true
      · -- completed, valid metadata: tier 4
        have f1 : List.filter (fun t => !t.completed && t.deadline_external.isSome) (t :: ts) =
            List.filter (fun t => !t.completed && t.deadline_external.isSome) ts := by
          rw [List.filter_cons, if_neg (by simp [hc, hm])]
        have f2 : List.filter (fun t => !t.completed && !t.deadline_external.isSome && t.deadline_user.isSome) (t :: ts) =
            List.filter (fun t => !t.completed && !t.deadline_external.isSome && t.deadline_user.isSome) ts := by
          rw [List.filter_cons, if_neg (by simp [hc, hm])]
        have f3 : List.filter (fun t => !t.completed && !t.deadline_external.isSome && !t.deadline_user.isSome) (t :: ts) =
            List.filter (fun t => !t.completed && !t.deadline_external.isSome && !t.deadline_user.isSome) ts := by
          rw [List.filter_cons, if_neg (by simp [hc, hm])]
        have f4 : List.filter (fun t => t.completed && has_valid_metadata t) (t :: ts) =
            t :: List.filter (fun t => t.completed && has_valid_metadata t) ts := by
          rw [List.filter_cons, if_pos (by simp [hc, hm])]
        have f5 : List.filter (fun t => t.completed && !has_valid_metadata t) (t :: ts) =
            List.filter (fun t => t.completed && !has_valid_metadata t) ts := by
          rw [List.filter_cons, if_neg (by simp [hc, hm])]
        rw [f1, f2, f3, f4, f5]
        exact (ih.cons t).trans
          (List.perm_middle.symm.trans (List.Perm.append_left _
            (List.perm_middle.symm.trans (List.Perm.append_left _
              List.perm_middle.symm))))
      · have hm2 : has_valid_metadata t = false := by simpa using hm
        have f1 : List.filter (fun t => !t.completed && t.deadline_external.isSome) (t :: ts) =
            List.filter (fun t => !t.completed && t.deadline_external.isSome) ts := by
          rw [List.filter_cons, if_neg (by simp [hc, hm2])]
        have f2 : List.filter (fun t => !t.completed && !t.deadline_external.isSome && t.deadline_user.isSome) (t :: ts) =
            List.filter (fun t => !t.completed && !t.deadline_external.isSome && t.deadline_user.isSome) ts := by
          rw [List.filter_cons, if_neg (by simp [hc, hm2])]
        have f3 : List.filter (fun t => !t.completed && !t.deadline_external.isSome && !t.deadline_user.isSome) (t :: ts) =
            List.filter (fun t => !t.completed && !t.deadline_external.isSome && !t.deadline_user.isSome) ts := by
          rw [List.filter_cons, if_neg (by simp [hc, hm2])]
        have f4 : List.filter (fun t => t.completed && has_valid_metadata t) (t :: ts) =
            List.filter (fun t => t.completed && has_valid_metadata t) ts := by
          rw [List.filter_cons, if_neg (by simp [hc, hm2])]
        have f5 : List.filter (fun t => t.completed && !has_valid_metadata t) (t :: ts) =
            t :: List.filter (fun t => t.completed && !has_valid_metadata t) ts := by
          rw [List.filter_cons, if_pos (by simp [hc, hm2])]
        rw [f1, f2, f3, f4, f5]
        exact (ih.cons t).trans
          (List.perm_middle.symm.trans (List.Perm.append_left _
            (List.perm_middle.symm.trans (List.Perm.append_left _
              (List.perm_middle.symm.trans (List.Perm.append_left _
                List.perm_middle.symm))))))
    · have hc2 : t.completed = false := by simpa using hc
      by_cases he : t.deadline_external.isSome = true
      · -- incomplete with external deadline: tier 1
        have f1 : List.filter (fun t => !t.completed && t.deadline_external.isSome) (t :: ts) =
            t :: List.filter (fun t => !t.completed && t.deadline_external.isSome) ts := by
          rw [List.filter_cons, if_pos (by simp [hc2, he])]
        have f2 : List.filter (fun t => !t.completed && !t.deadline_external.isSome && t.deadline_user.isSome) (t :: ts) =
            List.filter (fun t => !t.completed && !t.deadline_external.isSome && t.deadline_user.isSome) ts := by
          rw [List.filter_cons, if_neg (by simp [hc2, he])]
        have f3 : List.filter (fun t => !t.completed && !t.deadline_external.isSome && !t.deadline_user.isSome) (t :: ts) =
            List.filter (fun t => !t.completed && !t.deadline_external.isSome && !t.deadline_user.isSome) ts := by
          rw [List.filter_cons, if_neg (by simp [hc2, he])]
        have f4 : List.filter (fun t => t.completed && has_valid_metadata t) (t :: ts) =
            List.filter (fun t => t.completed && has_valid_metadata t) ts := by
          rw [List.filter_cons, if_neg (by simp [hc2, he])]
        have f5 : List.filter (fun t => t.completed && !has_valid_metadata t) (t :: ts) =
            List.filter (fun t => t.completed && !has_valid_metadata t) ts := by
          rw [List.filter_cons, if_neg (by simp [hc2, he])]
        rw [f1, f2, f3, f4, f5]
        exact ih.cons t
      · have he2 : t.deadline_external.isSome = false := by simpa using he
        by_cases hu : t.deadline_user.isSome = true
        · -- incomplete with user deadline only: tier 2
          have f1 : List.filter (fun t => !t.completed && t.deadline_external.isSome) (t :: ts) =
              List.filter (fun t => !t.completed && t.deadline_external.isSome) ts := by
            rw [List.filter_cons, if_neg (by simp [hc2, he2, hu])]
          have f2 : List.filter (fun t => !t.completed && !t.deadline_external.isSome && t.deadline_user.isSome) (t :: ts) =
              t :: List.filter (fun t => !t.completed && !t.deadline_external.isSome && t.deadline_user.isSome) ts := by
            rw [List.filter_cons, if_pos (by simp [hc2, he2, hu])]
          have f3 : List.filter (fun t => !t.completed && !t.deadline_external.isSome && !t.deadline_user.isSome) (t :: ts) =
              List.filter (fun t => !t.completed && !t.deadline_external.isSome && !t.deadline_user.isSome) ts := by
            rw [List.filter_cons, if_neg (by simp [hc2, he2, hu])]
          have f4 : List.filter (fun t => t.completed && has_valid_metadata t) (t :: ts) =
              List.filter (fun t => t.completed && has_valid_metadata t) ts := by
            rw [List.filter_cons, if_neg (by simp [hc2, he2, hu])]
          have f5 : List.filter (fun t => t.completed && !has_valid_metadata t) (t :: ts) =
              List.filter (fun t => t.completed && !has_valid_metadata t) ts := by
            rw [List.filter_cons, if_neg (by simp [hc2, he2, hu])]
          rw [f1, f2, f3, f4, f5]
          exact (ih.cons t).trans List.perm_middle.symm
        · have hu2 : t.deadline_user.isSome = false := by simpa using hu
          have f1 : List.filter (fun t => !t.completed && t.deadline_external.isSome) (t :: ts) =
              List.filter (fun t => !t.completed && t.deadline_external.isSome) ts := by
            rw [List.filter_cons, if_neg (by simp [hc2, he2, hu2])]
          have f2 : List.filter (fun t => !t.completed && !t.deadline_external.isSome && t.deadline_user.isSome) (t :: ts) =
              List.filter (fun t => !t.completed && !t.deadline_external.isSome && t.deadline_user.isSome) ts := by
            rw [List.filter_cons, if_neg (by simp [hc2, he2, hu2])]
          have f3 : List.filter (fun t => !t.completed && !t.deadline_external.isSome && !t.deadline_user.isSome) (t :: ts) =
              t :: List.filter (fun t => !t.completed && !t.deadline_external.isSome && !t.deadline_user.isSome) ts := by
            rw [List.filter_cons, if_pos (by simp [hc2, he2, hu2])]
          have f4 : List.filter (fun t => t.completed && has_valid_metadata t) (t :: ts) =
              List.filter (fun t => t.completed && has_valid_metadata t) ts := by
            rw [List.filter_cons, if_neg (by simp [hc2, he2, hu2])]
          have f5 : List.filter (fun t => t.completed && !has_valid_metadata t) (t :: ts) =
              List.filter (fun t => t.completed && !has_valid_metadata t) ts := by
            rw [List.filter_cons, if_neg (by simp [hc2, he2, hu2])]
          rw [f1, f2, f3, f4, f5]
          exact (ih.cons t).trans
            (List.perm_middle.symm.trans (List.Perm.append_left _ List.perm_middle.symm))

/-- C3: `_sort_tasks_globally` permutes its input into five consecutive
tiers — incomplete with external deadline, incomplete with only a user
deadline, incomplete without deadline, completed with positive duration,
remaining completed — each sorted by its tier key. -/
theorem claim_C3_sort_tasks_globally (tasks : List Task) :
    (sort_tasks_globally tasks).Perm tasks ∧
    ∃ l1 l2 l3 l4 l5 : List Task,
      sort_tasks_globally tasks = l1 ++ (l2 ++ (l3 ++ (l4 ++ l5))) ∧
      l1.Perm (tasks.filter fun t => !t.completed && t.deadline_external.isSome) ∧
      l1.Pairwise (keyLE hardKey) ∧
      l2.Perm (tasks.filter fun t =>
        !t.completed && !t.deadline_external.isSome && t.deadline_user.isSome) ∧
      l2.Pairwise (keyLE softKey) ∧
      l3.Perm (tasks.filter fun t =>
        !t.completed && !t.deadline_external.isSome && !t.deadline_user.isSome) ∧
      l3.Pairwise (keyLE noneKey) ∧
      l4.Perm (tasks.filter fun t => t.completed && has_valid_metadata t) ∧
      l4.Pairwise (keyLE cmetaKey) ∧
      l5.Perm (tasks.filter fun t => t.completed && !has_valid_metadata t) ∧
      l5.Pairwise (keyLE titleKey) := by
  constructor
  · refine List.Perm.trans ?_ (tasks_perm_parts tasks).symm
    simp only [sort_tasks_globally]
    exact (List.perm_insertionSort _ _).append
      ((List.perm_insertionSort _ _).append
        ((List.perm_insertionSort _ _).append
          ((List.perm_insertionSort _ _).append
            (List.perm_insertionSort _ _))))
  · refine ⟨_, _, _, _, _, rfl,
      List.perm_insertionSort _ _, List.sorted_insertionSort _ _,
      List.perm_insertionSort _ _, List.sorted_insertionSort _ _,
      List.perm_insertionSort _ _, List.sorted_insertionSort _ _,
      List.perm_insertionSort _ _, List.sorted_insertionSort _ _,
      List.perm_insertionSort _ _, List.sorted_insertionSort _ _⟩

/-- C5: `schedule_tasks` fails with an invalid-input error exactly when the
start instant is timezone-naive or some blocked-interval boundary is
timezone-naive; being a pure function returning `Except.error`, it then
produces no partial schedule (and the checks precede all placement work). -/
theorem claim_C5_invalid_input (tasks : List Task) (start_time : DT)
    (blocked_time : List TimeBlock) :
    (∃ e, schedule_tasks tasks start_time blocked_time = Except.error e) ↔
      (start_time.aware = false ∨
        ∃ b ∈ blocked_time, b.start.aware = false ∨ b.stop.aware = false) := by
  constructor
  · rintro ⟨e, he⟩
    simp only [schedule_tasks] at he
    by_cases h1 : start_time.aware = false
    · exact Or.inl h1
    · rw [if_neg h1] at he
      by_cases h2 : (blocked_time.any fun b => !b.start.aware || !b.stop.aware) = true
      · right
        rcases List.any_eq_true.mp h2 with ⟨b, hb, hcond⟩
        refine ⟨b, hb, ?_⟩
        rcases Bool.or_eq_true_iff.mp hcond with h | h
        · exact Or.inl (by simpa using h)
        · exact Or.inr (by simpa using h)
      · rw [if_neg h2] at he
        cases he
  · intro h
    by_cases h1 : start_time.aware = false
    · exact ⟨"start_time must be timezone-aware", by
        simp only [schedule_tasks]
        rw [if_pos h1]⟩
    · rcases h with h | ⟨b, hb, hcond⟩
      · exact absurd h h1
      · have h2 : (blocked_time.any fun b => !b.start.aware || !b.stop.aware) = true :=
          List.any_eq_true.mpr ⟨b, hb, by rcases hcond with h | h <;> simp [h]⟩
        exact ⟨"All blocked time must be timezone-aware", by
          simp only [schedule_tasks]
          rw [if_neg h1, if_pos h2]⟩

/-- A no-deadline task used to refute and then witness C6. -/
def c6NoDdl : Task :=
  { id := "a", title := "A", project := none, sectionLabel := none,
    estimated_duration := 3600, deadline_user := none, deadline_external := none,
    completed := false, source := "test", dur_pos := by norm_num }

/-- A task with a user deadline 2·10^10 seconds in the future (far enough
that its slack exceeds the 1e10 no-deadline sentinel). -/
def c6FarDdl : Task :=
  { id := "b", title := "B", project := none, sectionLabel := none,
    estimated_duration := 60, deadline_user := some ⟨20000000000, true⟩,
    deadline_external := none, completed := false, source := "test",
    dur_pos := by norm_num }

/-- C6 counterexample: with a deadline 2·10^10 seconds after the cursor (not
yet passed), positive remaining work on both tasks, and no blocked time, the
no-deadline task's score (1e10 + 3600) is NOT greater than the deadlined
task's score (2e10 − 60): the claim fails as stated. -/
theorem claim_C6_counterexample :
    c6NoDdl.effective_deadline = none ∧
    c6FarDdl.effective_deadline = some ⟨20000000000, true⟩ ∧
    (0 : Int) < 20000000000 - 0 ∧ (0 : Int) < 3600 ∧ (0 : Int) < 60 ∧
    ¬(calculate_urgency c6FarDdl 0 60 [] < calculate_urgency c6NoDdl 0 3600 []) := by
  refine ⟨rfl, rfl, by norm_num, by norm_num, by norm_num, ?_⟩
  have e1 : c6NoDdl.effective_deadline = none := rfl
  have e2 : c6FarDdl.effective_deadline = some ⟨20000000000, true⟩ := rfl
  have e3 : c6FarDdl.deadline_external.isSome = false := rfl
  have e4 : estimate_completion_time 0 60 [] = 60 := by
    rw [estimate_completion_time,
      estimate_go_none (by norm_num) (rfl : find_next_block 0 [] = none)]
    norm_num
  have h1 : calculate_urgency c6NoDdl 0 3600 [] = 1e10 + 3600 := by
    simp only [calculate_urgency, e1]
    norm_num
  have h2 : calculate_urgency c6FarDdl 0 60 [] = 20000000000 - 60 := by
    simp only [calculate_urgency, e2, e3, e4]
    norm_num
  rw [h1, h2]
  norm_num

/-- C6 amended: the no-deadline score exceeds the unexpired-deadline score
provided additionally that the deadline lies at most 10^10 seconds (the
sentinel constant of `_calculate_urgency`) after the cursor. -/
theorem claim_C6_amended (cursor : Int) (blocks : List TimeBlock)
    (tnd td : Task) (ddl : DT) (rnd rd : Int)
    (hnd : tnd.effective_deadline = none)
    (hd : td.effective_deadline = some ddl)
    (hlt : cursor < ddl.t)
    (hbound : ddl.t - cursor ≤ 10 ^ 10)
    (hrnd : 0 < rnd) (hrd : 0 < rd) :
    calculate_urgency td cursor rd blocks < calculate_urgency tnd cursor rnd blocks := by
  have hC : cursor + rd ≤ estimate_completion_time cursor rd blocks :=
    estimate_go_ge blocks cursor rd (le_of_lt hrd)
  simp only [calculate_urgency, hnd, hd]
  rw [if_neg (by omega : ¬ddl.t - cursor ≤ 0)]
  have h1 : ((ddl.t - cursor : Int) : ℚ) ≤ 10 ^ 10 := by exact_mod_cast hbound
  have h2 : ((rd : Int) : ℚ) ≤
      ((estimate_completion_time cursor rd blocks - cursor : Int) : ℚ) := by
    exact_mod_cast (by omega : rd ≤ estimate_completion_time cursor rd blocks - cursor)
  have h3 : (1 : ℚ) ≤ ((rd : Int) : ℚ) := by exact_mod_cast hrd
  have h4 : (0 : ℚ) < ((rnd : Int) : ℚ) := by exact_mod_cast hrnd
  push_cast at h1 h2 h3 h4
  by_cases hext : td.deadline_external.isSome = true
  · rw [if_pos hext]
    push_cast
    linarith
  · rw [if_neg hext]
    push_cast
    linarith

/-- Count of the user-deadline conflict record in one group's conflicts. -/
theorem build_group_count_user {first : Task × Int × Int}
    {rest : List (Task × Int × Int)} (hsorted : (first :: rest).Pairwise segLE)
    (d : DT) (hd : first.1.deadline_user = some d) :
    ((build_group (first :: rest)).2).count
        (⟨first.1.title, (rest.getLastD first).2.2, "user", d.t⟩ : Conflict) =
      if violates_deadline ((rest.getLastD first).2.2) first.1.deadline_user = true
      then 1 else 0 := by
  rw [build_group_eq hsorted]
  dsimp only
  have hA : first.1.deadline_user.isSome = true := by
    rw [hd]
    rfl
  have hdd : (first.1.deadline_user.map DT.t).getD 0 = d.t := by
    rw [hd]
    rfl
  rw [hdd]
  have hself : List.count
      (⟨first.1.title, (rest.getLastD first).2.2, "user", d.t⟩ : Conflict)
      [(⟨first.1.title, (rest.getLastD first).2.2, "user", d.t⟩ : Conflict)] = 1 := by
    rw [List.count_singleton, if_pos (by simp)]
  have hothercount : List.count
      (⟨first.1.title, (rest.getLastD first).2.2, "user", d.t⟩ : Conflict)
      (if (violates_deadline ((rest.getLastD first).2.2) first.1.deadline_external &&
          first.1.deadline_external.isSome) = true then
        [(⟨first.1.title, (rest.getLastD first).2.2, "external",
          (first.1.deadline_external.map DT.t).getD 0⟩ : Conflict)]
      else []) = 0 := by
    split
    · rw [List.count_singleton, if_neg]
      intro hbeq
      have hce := eq_of_beq hbeq
      have hk : ("external" : String) = "user" := congrArg Conflict.deadlineKind hce
      exact absurd hk (by decide)
    · rfl
  by_cases hv : violates_deadline ((rest.getLastD first).2.2) first.1.deadline_user = true
  · rw [if_pos hv]
    rw [if_pos (show (violates_deadline ((rest.getLastD first).2.2)
        first.1.deadline_user && first.1.deadline_user.isSome) = true by rw [hv, hA]; rfl)]
    rw [List.count_append]
    rw [hself, hothercount]
  · rw [if_neg hv]
    have hv0 : violates_deadline ((rest.getLastD first).2.2) first.1.deadline_user = false := by
      simpa using hv
    rw [if_neg (show ¬(violates_deadline ((rest.getLastD first).2.2)
        first.1.deadline_user && first.1.deadline_user.isSome) = true by rw [hv0]; simp)]
    rw [List.nil_append, hothercount]

/-- Count of the external-deadline conflict record in one group's conflicts. -/
theorem build_group_count_external {first : Task × Int × Int}
    {rest : List (Task × Int × Int)} (hsorted : (first :: rest).Pairwise segLE)
    (d : DT) (hd : first.1.deadline_external = some d) :
    ((build_group (first :: rest)).2).count
        (⟨first.1.title, (rest.getLastD first).2.2, "external", d.t⟩ : Conflict) =
      if violates_deadline ((rest.getLastD first).2.2) first.1.deadline_external = true
      then 1 else 0 := by
  rw [build_group_eq hsorted]
  dsimp only
  have hA : first.1.deadline_external.isSome = true := by
    rw [hd]
    rfl
  have hdd : (first.1.deadline_external.map DT.t).getD 0 = d.t := by
    rw [hd]
    rfl
  rw [hdd]
  have hself : List.count
      (⟨first.1.title, (rest.getLastD first).2.2, "external", d.t⟩ : Conflict)
      [(⟨first.1.title, (rest.getLastD first).2.2, "external", d.t⟩ : Conflict)] = 1 := by
    rw [List.count_singleton, if_pos (by simp)]
  have hothercount : List.count
      (⟨first.1.title, (rest.getLastD first).2.2, "external", d.t⟩ : Conflict)
      (if (violates_deadline ((rest.getLastD first).2.2) first.1.deadline_user &&
          first.1.deadline_user.isSome) = true then
        [(⟨first.1.title, (rest.getLastD first).2.2, "user",
          (first.1.deadline_user.map DT.t).getD 0⟩ : Conflict)]
      else []) = 0 := by
    split
    · rw [List.count_singleton, if_neg]
      intro hbeq
      have hce := eq_of_beq hbeq
      have hk : ("user" : String) = "external" := congrArg Conflict.deadlineKind hce
      exact absurd hk (by decide)
    · rfl
  by_cases hv : violates_deadline ((rest.getLastD first).2.2) first.1.deadline_external = true
  · rw [if_pos hv]
    rw [if_pos (show (violates_deadline ((rest.getLastD first).2.2)
        first.1.deadline_external && first.1.deadline_external.isSome) = true by rw [hv, hA]; rfl)]
    rw [List.count_append]
    rw [hself, hothercount]
  · rw [if_neg hv]
    have hv0 : violates_deadline ((rest.getLastD first).2.2) first.1.deadline_external = false := by
      simpa using hv
    rw [if_neg (show ¬(violates_deadline ((rest.getLastD first).2.2)
        first.1.deadline_external && first.1.deadline_external.isSome) = true by rw [hv0]; simp)]
    rw [List.append_nil, hothercount]

/-- C4: for every successful run (distinct ids and titles), each incomplete
task's violation flags on all of its segments are computed from the
chronologically last segment's end `F` against each deadline (`false` when
absent, strict inequality otherwise), so all its segments carry identical
flags; and for each deadline kind the run's conflict list contains the record
naming the task's title, `F` and that deadline exactly once if violated and
not at all otherwise. -/
theorem claim_C4_final_segment_flags (tasks : List Task) (start_time : DT)
    (blocked_time : List TimeBlock) (sched : DaySchedule)
    (hok : schedule_tasks tasks start_time blocked_time = Except.ok sched)
    (hids : (tasks.map Task.id).Nodup) (htitles : (tasks.map Task.title).Nodup)
    (t : Task) (ht : t ∈ tasks) (hc : t.completed = false)
    (hne : (sched.scheduled_tasks.filter fun st => st.task.id = t.id) ≠ []) :
    ∃ F : Int,
      ((sched.scheduled_tasks.filter fun st => st.task.id = t.id).getLast hne).stop = F ∧
      (∀ st ∈ sched.scheduled_tasks.filter fun st => st.task.id = t.id,
        st.violates_deadline_user = violates_deadline F t.deadline_user ∧
        st.violates_deadline_external = violates_deadline F t.deadline_external) ∧
      (∀ d : DT, t.deadline_user = some d →
        sched.conflicts.count (⟨t.title, F, "user", d.t⟩ : Conflict) =
          if violates_deadline F t.deadline_user = true then 1 else 0) ∧
      (∀ d : DT, t.deadline_external = some d →
        sched.conflicts.count (⟨t.title, F, "external", d.t⟩ : Conflict) =
          if violates_deadline F t.deadline_external = true then 1 else 0) := by
  obtain ⟨-, hsched, -, hconf, -⟩ := schedule_tasks_ok hok
  have hsort : (blocked_time.insertionSort blockLE).Pairwise blockLE :=
    List.sorted_insertionSort blockLE blocked_time
  obtain ⟨g, hfilter, hlen, hgne, hchain, hsorted, hsegs, hcount⟩ :=
    schedule_opportunistically_per_task tasks start_time.t
      (blocked_time.insertionSort blockLE) hsort hids ht hc
  have hfilter' : (sched.scheduled_tasks.filter fun st => st.task.id = t.id) =
      (build_group g).1 := by
    rw [hsched]
    exact hfilter
  rcases hgc : g with _ | ⟨first, rest⟩
  · rw [hgc] at hgne
    exact absurd rfl hgne
  · rw [hgc] at hfilter' hchain hsorted hsegs hcount
    have hfirst_t : first.1 = t := (hsegs first (List.mem_cons_self _ _)).1
    refine ⟨(rest.getLastD first).2.2, ?_, ?_, ?_, ?_⟩
    · -- the last filtered segment ends at F
      have hbne : (build_group (first :: rest)).1 ≠ [] := by
        rw [← hfilter']
        exact hne
      have h1 : (sched.scheduled_tasks.filter fun st => st.task.id = t.id).getLast hne =
          (build_group (first :: rest)).1.getLast hbne := by
        congr 1
      have h2 := congrArg List.getLast? (build_group_map_startStop hsorted)
      rw [List.getLast?_map, List.getLast?_map, List.getLast?_eq_getLast _ hbne,
        List.getLast?_cons, Option.map_some'] at h2
      injection h2 with h2
      rw [h1, List.getLastD_eq_getLast?]
      exact congrArg Prod.snd h2
    · -- identical flags on every segment, computed from F
      intro st hst
      rw [hfilter'] at hst
      obtain ⟨htask, hvu, hve, -, -⟩ := build_group_mem hsorted st hst
      rw [hvu, hve, hfirst_t]
      exact ⟨rfl, rfl⟩
    · -- user-deadline conflict count
      intro d hd
      have hcnt := hcount htitles
        (⟨t.title, (rest.getLastD first).2.2, "user", d.t⟩ : Conflict) rfl
      rw [hconf, hcnt, ← hfirst_t]
      rw [← hfirst_t] at hd
      exact build_group_count_user hsorted d hd
    · -- external-deadline conflict count
      intro d hd
      have hcnt := hcount htitles
        (⟨t.title, (rest.getLastD first).2.2, "external", d.t⟩ : Conflict) rfl
      rw [hconf, hcnt, ← hfirst_t]
      rw [← hfirst_t] at hd
      exact build_group_count_external hsorted d hd

/-- C8: the defensive stop branch is unreachable under valid input. First,
whenever some remaining-work counter belonging to a known task is positive
(and keys are distinct, as the engine's own initialization guarantees),
`_select_next_task` returns a task, never `None`. Second, for every run
started the way `_schedule_opportunistically` starts it, the loop's final
remaining-work map is identically zero: no silently truncated partial
schedule. -/
theorem claim_C8_no_silent_truncation :
    (∀ (tasks : List Task) (rem : List (String × Int)) (ct : Int)
        (bt : List TimeBlock),
      (∀ p ∈ rem, 0 < p.2 → ∃ t ∈ tasks, t.id = p.1) →
      (rem.map Prod.fst).Nodup →
      (∃ p ∈ rem, 0 < p.2) →
      select_next_task tasks rem ct bt ≠ none) ∧
    (∀ (tasks : List Task) (blocked_time : List TimeBlock) (start_time : Int),
      ∀ p ∈ (sched_loop (tasks.filter fun t => !t.completed)
          (blocked_time.insertionSort blockLE) (initRemaining tasks)
          start_time []).2, p.2 = 0) := by
  constructor
  · intro tasks rem ct bt hsel hnodup ⟨p, hp, hpos⟩
    rcases hsel p hp hpos with ⟨t', ht', hid⟩
    have hpm : (t'.id, p.2) ∈ rem := by
      have hpe : p = (t'.id, p.2) := by
        rw [hid]
      rw [← hpe]
      exact hp
    refine select_next_task_ne_none ht' ?_
    rw [mem_rlookup hnodup hpm]
    simpa using hpos
  · intro tasks blocked_time start_time
    exact (schedule_opportunistically_loop_spec tasks start_time
      (blocked_time.insertionSort blockLE)
      (List.sorted_insertionSort blockLE blocked_time)).1

/-- C9: every successful `schedule_continuous` run over `num_days` days
returns one `DaySchedule` per day; each day's entry contains exactly those
scheduled segments (unclipped) and blocked intervals of the single continuous
run whose start date is on or before the day and whose end date is on or
after it, and the conflict list is the full run's conflict list on the first
day and empty on every later day. -/
theorem claim_C9_day_partition (tasks : List Task) (start_time : DT) (num_days : Nat)
    (daily_blocked_time_fn : Int → List TimeBlock) (out : List (Int × DaySchedule))
    (hok : schedule_continuous tasks start_time num_days daily_blocked_time_fn =
      Except.ok out) :
    out.length = num_days ∧
    ∀ i : Nat, ∀ h : i < out.length,
      (out.get ⟨i, h⟩).1 = dateOf start_time.t + (i : Int) ∧
      (out.get ⟨i, h⟩).2.date = dateOf start_time.t + (i : Int) ∧
      (∀ st, st ∈ (out.get ⟨i, h⟩).2.scheduled_tasks ↔
        (st ∈ (schedule_opportunistically tasks start_time.t
            (((List.range (num_days + 1)).flatMap fun day_offset : Nat =>
              daily_blocked_time_fn (dateOf start_time.t + (day_offset : Int))).insertionSort
                blockLE)).1 ∧
          dateOf st.start ≤ dateOf start_time.t + (i : Int) ∧
          dateOf start_time.t + (i : Int) ≤ dateOf st.stop)) ∧
      (∀ b, b ∈ (out.get ⟨i, h⟩).2.blocked_time ↔
        (b ∈ ((List.range (num_days + 1)).flatMap fun day_offset : Nat =>
            daily_blocked_time_fn (dateOf start_time.t + (day_offset : Int))) ∧
          dateOf b.start.t ≤ dateOf start_time.t + (i : Int) ∧
          dateOf start_time.t + (i : Int) ≤ dateOf b.stop.t)) ∧
      (out.get ⟨i, h⟩).2.conflicts =
        (if i = 0 then
          (schedule_opportunistically tasks start_time.t
            (((List.range (num_days + 1)).flatMap fun day_offset : Nat =>
              daily_blocked_time_fn (dateOf start_time.t + (day_offset : Int))).insertionSort
                blockLE)).2
        else []) := by
  simp only [schedule_continuous] at hok
  by_cases h1 : start_time.aware = false
  · rw [if_pos h1] at hok
    cases hok
  · rw [if_neg h1] at hok
    injection hok with hok
    rw [← hok]
    constructor
    · simp
    · intro i h
      rw [List.get_eq_getElem]
      simp only [List.getElem_map, List.getElem_range]
      refine ⟨trivial, trivial, ?_, ?_, trivial⟩
      · intro st
        rw [List.mem_filter]
        simp only [Bool.and_eq_true, decide_eq_true_eq]
      · intro b
        rw [List.mem_filter]
        simp only [Bool.and_eq_true, decide_eq_true_eq]
        constructor
        · rintro ⟨hm, hcond⟩
          exact ⟨(List.perm_insertionSort blockLE _).mem_iff.mp hm, hcond⟩
        · rintro ⟨hm, hcond⟩
          exact ⟨(List.perm_insertionSort blockLE _).mem_iff.mpr hm, hcond⟩

end Chronix

namespace Chronix

def c7Task : Task :=
  { id := "t1", title := "Task", project := none, sectionLabel := none,
    estimated_duration := 10800, deadline_user := some ⟨39600, true⟩,
    deadline_external := none, completed := false, source := "test",
    dur_pos := by norm_num }

def c7Block : TimeBlock :=
  { start := ⟨36000, true⟩, stop := ⟨37800, true⟩, kind := "meeting",
    label := none, ok := by norm_num }

def c7St1 : ScheduledTask :=
  ⟨c7Task, 32400, 36000, true, false, true, some 1, some 2⟩

def c7St2 : ScheduledTask :=
  ⟨c7Task, 37800, 45000, true, false, true, some 2, some 2⟩

def c7Conf : Conflict := ⟨"Task", 45000, "user", 39600⟩

def c7Sched : DaySchedule := ⟨0, [c7St1, c7St2], [c7Block], [c7Conf]⟩

theorem c7_safe1 : is_safe_to_schedule c7Task 32400 [("t1", 10800)] [c7Task] [c7Block] = true := by
  unfold is_safe_to_schedule
  simp

theorem c7_sel1 : select_next_task [c7Task] [("t1", 10800)] 32400 [c7Block] = some c7Task := by
  have hid : c7Task.id = "t1" := rfl
  unfold select_next_task
  simp [hid, rlookup, c7_safe1]

theorem c7_fnb1 : find_next_block 32400 [c7Block] = some c7Block := rfl

theorem c7_fnb2 : find_next_block 36000 [c7Block] = some c7Block := rfl

theorem c7_fnb3 : find_next_block 37800 [c7Block] = none := rfl

theorem c7_skip1 : skip_past_blocks [c7Block] 32400 = 32400 := by
  rw [skip_past_blocks_some c7_fnb1, if_neg (by decide)]

theorem c7_skip2 : skip_past_blocks [c7Block] 36000 = 36000 := by
  rw [skip_past_blocks_some c7_fnb2, if_neg (by decide)]

theorem c7_skip3 : skip_past_blocks [c7Block] 37800 = 37800 :=
  skip_past_blocks_none c7_fnb3

theorem c7_seg1 : schedule_task_segment [c7Block] 32400 10800 = ((32400, 36000), 36000) := by
  rw [schedule_task_segment_some
    (show find_next_block (skip_past_blocks [c7Block] 32400) [c7Block] = some c7Block by
      rw [c7_skip1]; exact c7_fnb1)]
  rw [c7_skip1]
  rw [if_neg (by decide)]
  rfl

theorem c7_seg2 : schedule_task_segment [c7Block] 36000 7200 = ((37800, 45000), 45000) := by
  rw [schedule_task_segment_some
    (show find_next_block (skip_past_blocks [c7Block] 36000) [c7Block] = some c7Block by
      rw [c7_skip2]; exact c7_fnb2)]
  rw [c7_skip2]
  rw [if_pos (by decide)]
  have hstop : c7Block.stop.t = 37800 := rfl
  rw [hstop]
  rw [schedule_task_segment_none
    (show find_next_block (skip_past_blocks [c7Block] 37800) [c7Block] = none by
      rw [c7_skip3]; exact c7_fnb3)]
  rw [c7_skip3]
  rfl

theorem c7_safe2 : is_safe_to_schedule c7Task 36000 [("t1", 7200)] [c7Task] [c7Block] = true := by
  unfold is_safe_to_schedule
  simp

theorem c7_sel2 : select_next_task [c7Task] [("t1", 7200)] 36000 [c7Block] = some c7Task := by
  have hid : c7Task.id = "t1" := rfl
  unfold select_next_task
  simp [hid, rlookup, c7_safe2]

theorem c7_loop : sched_loop [c7Task] [c7Block] [("t1", 10800)] 32400 [] =
    ([("t1", [(c7Task, 32400, 36000), (c7Task, 37800, 45000)])], [("t1", 0)]) := by
  rw [sched_loop_step (by decide) c7_sel1]
  simp only [show (rlookup [("t1", 10800)] c7Task.id).getD 0 = 10800 from rfl, c7_seg1]
  have h1 : rset [("t1", 10800)] c7Task.id (10800 - ((32400, 36000).2 - (32400, 36000).1)) =
      [("t1", 7200)] := rfl
  have h2 : sappend [] c7Task.id (c7Task, (32400, 36000).1, (32400, 36000).2) =
      [("t1", [(c7Task, 32400, 36000)])] := rfl
  rw [h1, h2]
  rw [sched_loop_step (by decide) c7_sel2]
  simp only [show (rlookup [("t1", 7200)] c7Task.id).getD 0 = 7200 from rfl, c7_seg2]
  have h3 : rset [("t1", 7200)] c7Task.id (7200 - ((37800, 45000).2 - (37800, 45000).1)) =
      [("t1", 0)] := rfl
  have h4 : sappend [("t1", [(c7Task, 32400, 36000)])] c7Task.id
      (c7Task, (37800, 45000).1, (37800, 45000).2) =
      [("t1", [(c7Task, 32400, 36000), (c7Task, 37800, 45000)])] := rfl
  rw [h3, h4]
  exact sched_loop_done (by decide)

theorem c7_run : schedule_tasks [c7Task] ⟨32400, true⟩ [c7Block] = Except.ok c7Sched := by
  have hloop : sched_loop ([c7Task].filter fun t => !t.completed) ([c7Block].insertionSort blockLE)
      (initRemaining [c7Task]) 32400 [] =
      ([("t1", [(c7Task, 32400, 36000), (c7Task, 37800, 45000)])], [("t1", 0)]) := c7_loop
  simp only [schedule_tasks, schedule_opportunistically]
  rw [if_neg (by decide), if_neg (by decide)]
  rw [hloop]
  rfl


/-- C7 counterexample: on the stated input (one 3-hour task with user deadline
11:00, blocked [10:00, 10:30), start 09:00, times as seconds of the day), the
run does NOT produce the claimed segments [09:00, 10:00) and [10:30, 11:30)
with a conflict naming 11:30: the second segment actually ends at 12:30
(45000), since 3 hours of work cannot fit before 11:30 around a 30-minute
block. -/
theorem claim_C7_counterexample :
    ¬∃ sched, schedule_tasks [c7Task] ⟨32400, true⟩ [c7Block] = Except.ok sched ∧
      ((sched.scheduled_tasks.map fun st => (st.start, st.stop)) =
          [(32400, 36000), (37800, 41400)] ∧
        sched.conflicts.map Conflict.endsAt = [41400]) := by
  rintro ⟨sched, hok, hmap, -⟩
  rw [c7_run] at hok
  injection hok with hok
  subst hok
  simp [c7Sched, c7St1, c7St2] at hmap

/-- C7 amended: the run on the stated input produces exactly the segments
[09:00, 10:00) and [10:30, 12:30) and exactly one conflict naming the 12:30
completion (45000) and the 11:00 deadline (39600). -/
theorem claim_C7_amended :
    ∃ sched, schedule_tasks [c7Task] ⟨32400, true⟩ [c7Block] = Except.ok sched ∧
      (sched.scheduled_tasks.map fun st => (st.start, st.stop)) =
        [(32400, 36000), (37800, 45000)] ∧
      sched.conflicts = [(⟨"Task", 45000, "user", 39600⟩ : Conflict)] ∧
      sched.date = 0 ∧ sched.blocked_time = [c7Block] :=
  ⟨c7Sched, c7_run, rfl, rfl, rfl, rfl⟩

/-- Witness for C1 at a concrete successful run. -/
theorem claim_C1_segment_cover_witness :
    schedule_tasks [c7Task] ⟨32400, true⟩ [c7Block] = Except.ok c7Sched ∧
    ([c7Task].map Task.id).Nodup ∧ c7Task ∈ [c7Task] ∧ c7Task.completed = false ∧
    (((c7Sched.scheduled_tasks.filter fun st => st.task.id = c7Task.id).map
        fun st => st.stop - st.start).sum = c7Task.estimated_duration) :=
  ⟨c7_run, by decide, List.mem_cons_self _ _, rfl,
    (claim_C1_segment_cover [c7Task] ⟨32400, true⟩ [c7Block] c7Sched c7_run (by decide)
      c7Task (List.mem_cons_self _ _) rfl).1⟩

/-- Witness for C2 at a concrete successful run, a concrete segment and a
concrete blocked interval. -/
theorem claim_C2_no_block_overlap_witness :
    schedule_tasks [c7Task] ⟨32400, true⟩ [c7Block] = Except.ok c7Sched ∧
    ¬(c7St1.start < c7Block.stop.t ∧ c7Block.start.t < c7St1.stop) :=
  ⟨c7_run, claim_C2_no_block_overlap [c7Task] ⟨32400, true⟩ [c7Block] c7Sched c7_run
    c7St1 (List.mem_cons_self _ _) c7Block (List.mem_cons_self _ _)⟩

/-- Witness for C4 at a concrete successful run. -/
theorem claim_C4_final_segment_flags_witness :
    schedule_tasks [c7Task] ⟨32400, true⟩ [c7Block] = Except.ok c7Sched ∧
    ([c7Task].map Task.id).Nodup ∧ ([c7Task].map Task.title).Nodup ∧
    c7Task ∈ [c7Task] ∧ c7Task.completed = false ∧
    (c7Sched.scheduled_tasks.filter fun st => st.task.id = c7Task.id) ≠ [] ∧
    ∃ F : Int,
      (∀ st ∈ c7Sched.scheduled_tasks.filter fun st => st.task.id = c7Task.id,
        st.violates_deadline_user = violates_deadline F c7Task.deadline_user ∧
        st.violates_deadline_external = violates_deadline F c7Task.deadline_external) ∧
      (∀ d : DT, c7Task.deadline_user = some d →
        c7Sched.conflicts.count (⟨c7Task.title, F, "user", d.t⟩ : Conflict) =
          if violates_deadline F c7Task.deadline_user = true then 1 else 0) :=
  ⟨c7_run, by decide, by decide, List.mem_cons_self _ _, rfl, List.cons_ne_nil _ _, by
    obtain ⟨F, -, h2, h3, -⟩ := claim_C4_final_segment_flags [c7Task] ⟨32400, true⟩ [c7Block]
      c7Sched c7_run (by decide) (by decide) c7Task (List.mem_cons_self _ _) rfl
      (List.cons_ne_nil _ _)
    exact ⟨F, h2, h3⟩⟩

/-- A task with a user deadline 5000 seconds in the future, within the 10^10
sentinel bound. -/
def c6NearDdl : Task :=
  { id := "c", title := "C", project := none, sectionLabel := none,
    estimated_duration := 60, deadline_user := some ⟨5000, true⟩,
    deadline_external := none, completed := false, source := "test",
    dur_pos := by norm_num }

/-- Witness for the amended C6 at a concrete pair of tasks whose deadline is
within the sentinel bound. -/
theorem claim_C6_amended_witness :
    c6NoDdl.effective_deadline = none ∧
    c6NearDdl.effective_deadline = some ⟨5000, true⟩ ∧
    (0 : Int) < (5000 : Int) ∧ (5000 : Int) - 0 ≤ 10 ^ 10 ∧
    (0 : Int) < 3600 ∧ (0 : Int) < 60 ∧
    calculate_urgency c6NearDdl 0 60 [] < calculate_urgency c6NoDdl 0 3600 [] :=
  ⟨rfl, rfl, by norm_num, by norm_num, by norm_num, by norm_num,
    claim_C6_amended 0 [] c6NoDdl c6NearDdl ⟨5000, true⟩ 3600 60 rfl rfl
      (by decide) (by decide) (by norm_num) (by norm_num)⟩

/-- `_schedule_opportunistically` on an empty task list produces nothing. -/
theorem schedule_opportunistically_nil (ct : Int) (bt : List TimeBlock) :
    schedule_opportunistically [] ct bt = ([], []) := by
  rw [schedule_opportunistically]
  rw [show sched_loop (([] : List Task).filter fun t => !t.completed) bt (initRemaining []) ct [] =
      ([], []) from sched_loop_done rfl]
  rfl

/-- A concrete one-day `schedule_continuous` run with no tasks and no blocked
time. -/
theorem c9_run : schedule_continuous [] ⟨0, true⟩ 1 (fun _ => []) =
    Except.ok [(0, (⟨0, [], [], []⟩ : DaySchedule))] := by
  simp only [schedule_continuous]
  rw [if_neg (by decide)]
  rw [schedule_opportunistically_nil]
  rfl

/-- Witness for C9 at a concrete successful one-day continuous run. -/
theorem claim_C9_day_partition_witness :
    schedule_continuous [] ⟨0, true⟩ 1 (fun _ => []) =
      Except.ok [(0, (⟨0, [], [], []⟩ : DaySchedule))] ∧
    ([(0, (⟨0, [], [], []⟩ : DaySchedule))] : List (Int × DaySchedule)).length = 1 :=
  ⟨c9_run, (claim_C9_day_partition [] ⟨0, true⟩ 1 (fun _ => [])
    [(0, (⟨0, [], [], []⟩ : DaySchedule))] c9_run).1⟩

end Chronix
